import Mathlib

/-!
# Verification of `git-changes` (kaplanelad/git-changes)

A shallow embedding of the change-computation and export engine of the
`git-changes` crate, together with theorems settling the frozen claims about
its specification.

Modelling conventions:
* The external `git` binary is an oracle (`GitEnv`): a function from the
  argument list of one invocation to the raw process outcome (spawn failure,
  or captured status / stdout bytes / stderr).  `src/git.rs` always invokes
  `git` in the bound working tree, so the tree is folded into the oracle.
* Machine text: process stdout is a byte list (`List Nat`, each < 256 in
  practice); `String::from_utf8` is embedded as an executable strict UTF-8
  decoder.  stderr is consumed by the source only through
  `String::from_utf8_lossy`, so it is modelled as already-decoded text.
* The filesystem is explicit state (`FS`): a finite map from written paths to
  byte contents plus a set of created directories.  Filesystem-mutating
  operations additionally return the list of performed filesystem events,
  in order, so that claims about *when* directories are created are statable.
* Rust `HashMap<String, FileChange>` is embedded as an association list with
  key-replacing insert (`ChangeMap`); iteration order of the Rust map is
  unspecified, and no theorem below depends on the order chosen here.
-/

/-! ## String utilities

Embeddings of the Rust string primitives used by the source
(`str::split_whitespace`, `str::lines`, `str::trim`, `str::starts_with`,
`String::from_utf8`).  They are written by structural recursion over the
character/byte lists so that concrete runs reduce inside the kernel. -/

/-! ## The change map

`HashMap<String, FileChange>` from the source, embedded as an association
list whose `insert` replaces any existing binding for the key.  `find?` is
ordinary first-match lookup; maps built from `ChangeMap.empty` by `insert`
have pairwise distinct keys, so the match is unique. -/

/-! ## The git capability (`src/git.rs`)

One external invocation is `Command::new("git").args(args).output()`: it
either fails to spawn (an `io::Error`) or yields an exit status plus captured
stdout and stderr.  The repository working tree bound to the `GitCli` value is
part of the oracle. -/

/-! ## Name-status parsing (`src/processor.rs`)

Both `get_changes_for_branch` (lines 164-210) and `get_changes_for_commits`
(lines 284-345) run the same loop over `output.lines()`: split each line on
whitespace, skip lines with fewer than two fields, map the first field
(`"A"` / `"D"` / catch-all) to a status and insert under the second field. -/

/-! ## The filesystem model and the export loop

Every path the exporter touches is `output_dir.join(rel)` for a
repository-relative `rel`, kept as the pair below so that path equality is
structural.  `FS` records written files and created directories; filesystem
primitives never fail in the model (the `IoError` branches of the source are
out of the claims' scope).  Mutating operations also return the list of
filesystem events they performed, in order. -/

/-- `src/types.rs`: `enum FileStatus { Added, Modified, Deleted }`. -/
inductive FileStatus where
  | Added
  | Modified
  | Deleted
deriving DecidableEq, Repr

/-- `src/types.rs`: `struct FileChange { path: String, status: FileStatus }`. -/
structure FileChange where
  path : String
  status : FileStatus
deriving DecidableEq, Repr

/-- `src/types.rs`: `enum AnalysisTarget { Branch(String), Commits(Vec<String>) }`. -/
inductive AnalysisTarget where
  | Branch (name : String)
  | Commits (ids : List String)
deriving DecidableEq, Repr

/-- `src/error.rs`: the crate's error enumeration.  `IoError` carries an
`io::Error`, embedded as its message; the other two carry strings as in the
source. -/
inductive Error where
  | IoError (msg : String)
  | GitCommandError (msg : String)
  | TempDirError (msg : String)
deriving DecidableEq, Repr

/-- Worker for `splitWhitespace`: `acc` holds the current (reversed) token. -/
def splitWsAux : List Char → List Char → List String
  | [], acc => if acc = [] then [] else [String.mk acc.reverse]
  | c :: cs, acc =>
    if c.isWhitespace then
      (if acc = [] then [] else [String.mk acc.reverse]) ++ splitWsAux cs []
    else
      splitWsAux cs (c :: acc)

/-- Rust `str::split_whitespace`: the maximal whitespace-free tokens of `s`,
in order (empty tokens never occur). -/
def splitWhitespace (s : String) : List String :=
  splitWsAux s.data []

/-- Reassemble one line accumulated in reverse, stripping one trailing
carriage return as Rust `str::lines` does. -/
def finishLine (acc : List Char) : String :=
  match acc with
  | '\r' :: t => String.mk t.reverse
  | t => String.mk t.reverse

/-- Worker for `rustLines`. -/
def rustLinesAux : List Char → List Char → List String
  | [], acc => if acc = [] then [] else [finishLine acc]
  | c :: cs, acc =>
    if c = '\n' then finishLine acc :: rustLinesAux cs []
    else rustLinesAux cs (c :: acc)

/-- Rust `str::lines`: split at `'\n'`, strip a trailing `'\r'` from each
line, and do not produce a final empty line for a trailing newline. -/
def rustLines (s : String) : List String :=
  rustLinesAux s.data []

/-- Drop leading whitespace characters from a character list. -/
def dropLeadingWs : List Char → List Char
  | [] => []
  | c :: cs => if c.isWhitespace then dropLeadingWs cs else c :: cs

/-- Rust `str::trim`: remove leading and trailing whitespace. -/
def rustTrim (s : String) : String :=
  String.mk (dropLeadingWs (dropLeadingWs s.data).reverse).reverse

/-- Rust `str::starts_with` on the underlying character lists
(first argument: the candidate prefix pattern). -/
def strBeginsWith : List Char → List Char → Bool
  | [], _ => true
  | _ :: _, [] => false
  | p :: ps, c :: cs => p == c && strBeginsWith ps cs

/-- Is `b` a UTF-8 continuation byte (`0x80..=0xBF`)? -/
def isUtf8Cont (b : Nat) : Bool :=
  0x80 ≤ b && b < 0xC0

/-- Strict UTF-8 decoding of a byte sequence into characters, rejecting
overlong forms, surrogates and out-of-range code points exactly as Rust's
`String::from_utf8` does.  Returns `none` on any invalid sequence. -/
def utf8DecodeChars : List Nat → Option (List Char)
  | [] => some []
  | b1 :: rest =>
    if b1 < 0x80 then
      (utf8DecodeChars rest).map (fun cs => Char.ofNat b1 :: cs)
    else if b1 < 0xC2 then
      none
    else if b1 < 0xE0 then
      match rest with
      | b2 :: rest2 =>
        if isUtf8Cont b2 then
          (utf8DecodeChars rest2).map
            (fun cs => Char.ofNat ((b1 - 0xC0) * 0x40 + (b2 - 0x80)) :: cs)
        else none
      | [] => none
    else if b1 < 0xF0 then
      match rest with
      | b2 :: b3 :: rest3 =>
        if isUtf8Cont b2 && isUtf8Cont b3 then
          let cp := (b1 - 0xE0) * 0x1000 + (b2 - 0x80) * 0x40 + (b3 - 0x80)
          if 0x800 ≤ cp && (cp < 0xD800 || 0xE000 ≤ cp) then
            (utf8DecodeChars rest3).map (fun cs => Char.ofNat cp :: cs)
          else none
        else none
      | _ => none
    else if b1 < 0xF5 then
      match rest with
      | b2 :: b3 :: b4 :: rest4 =>
        if isUtf8Cont b2 && isUtf8Cont b3 && isUtf8Cont b4 then
          let cp := (b1 - 0xF0) * 0x40000 + (b2 - 0x80) * 0x1000 +
            (b3 - 0x80) * 0x40 + (b4 - 0x80)
          if 0x10000 ≤ cp && cp ≤ 0x10FFFF then
            (utf8DecodeChars rest4).map (fun cs => Char.ofNat cp :: cs)
          else none
        else none
      | _ => none
    else none

/-- Rust `String::from_utf8` as an `Option`: `some` of the decoded text on
valid input, `none` on a UTF-8 error. -/
def utf8Decode (bs : List Nat) : Option String :=
  (utf8DecodeChars bs).map String.mk

/-- UTF-8 encoding of one character (used to build concrete byte inputs). -/
def utf8EncodeChar (c : Char) : List Nat :=
  let n := c.toNat
  if n < 0x80 then [n]
  else if n < 0x800 then [0xC0 + n / 0x40, 0x80 + n % 0x40]
  else if n < 0x10000 then
    [0xE0 + n / 0x1000, 0x80 + (n / 0x40) % 0x40, 0x80 + n % 0x40]
  else
    [0xF0 + n / 0x40000, 0x80 + (n / 0x1000) % 0x40,
     0x80 + (n / 0x40) % 0x40, 0x80 + n % 0x40]

/-- UTF-8 encoding of a string into bytes. -/
def utf8Encode (s : String) : List Nat :=
  (s.data.map utf8EncodeChar).flatten

abbrev ChangeMap := List (String × FileChange)

/-- The empty map (`HashMap::new()` / `HashMap::with_capacity(..)`). -/
def ChangeMap.empty : ChangeMap := []

/-- Remove every binding of key `k`. -/
def ChangeMap.erase : ChangeMap → String → ChangeMap
  | [], _ => []
  | (k', v) :: rest, k =>
    if k' = k then ChangeMap.erase rest k else (k', v) :: ChangeMap.erase rest k

/-- `HashMap::insert`: bind `k` to `v`, replacing any previous binding. -/
def ChangeMap.insert (m : ChangeMap) (k : String) (v : FileChange) : ChangeMap :=
  (k, v) :: ChangeMap.erase m k

/-- `HashMap::get`: the value bound to `k`, if any. -/
def ChangeMap.find? : ChangeMap → String → Option FileChange
  | [], _ => none
  | (k', v) :: rest, k => if k' = k then some v else ChangeMap.find? rest k

/-- The keys of the map, in entry order. -/
def ChangeMap.keys (m : ChangeMap) : List String :=
  m.map Prod.fst

/-- The map has pairwise distinct keys. -/
def ChangeMap.NodupKeys (m : ChangeMap) : Prop :=
  (ChangeMap.keys m).Nodup

/-- Every entry's key equals the `path` field of its value (claim C10's
invariant). -/
def ChangeMap.PathKeyed (m : ChangeMap) : Prop :=
  ∀ kv ∈ m, (Prod.snd kv).path = Prod.fst kv

/-- Left-biased choice on options (strict version of `Option.orElse`,
used to state lookup characterizations). -/
def optOr (a b : Option FileChange) : Option FileChange :=
  match a with
  | some v => some v
  | none => b

/-- `for (k, v) in src { dst.insert(k, v) }`: insert every entry of `src`
into `dst`, in entry order. -/
def ChangeMap.insertAll (dst src : ChangeMap) : ChangeMap :=
  src.foldl (fun acc kv => ChangeMap.insert acc (Prod.fst kv) (Prod.snd kv)) dst

/-- Merge a list of change maps left to right, later maps overwriting
earlier bindings. -/
def ChangeMap.mergeAll (ms : List ChangeMap) : ChangeMap :=
  ms.foldl ChangeMap.insertAll ChangeMap.empty

/-- First map in the list that binds `p` determines the result. -/
def firstHit : List ChangeMap → String → Option FileChange
  | [], _ => none
  | m :: ms, p => optOr (ChangeMap.find? m p) (firstHit ms p)

/-- The outcome of a successfully spawned process (`std::process::Output`).
`stderr` is only ever consumed through `String::from_utf8_lossy`, so it is
modelled as the decoded text. -/
structure ProcOutput where
  success : Bool
  stdout : List Nat
  stderr : String
deriving DecidableEq, Repr

/-- The result of `Command::output()`. -/
inductive SpawnResult where
  | ok (out : ProcOutput)
  | spawnFailure (msg : String)
deriving DecidableEq, Repr

/-- The oracle for the external `git` binary bound to one working tree:
per argument list, the process outcome.  `tempWorkspace` models
`tree_fs::TreeBuilder::default().create()` (the scratch-clone workspace). -/
structure GitEnv where
  run : List String → SpawnResult
  tempWorkspace : Except String String

/-- Stand-in for the message of Rust's `FromUtf8Error::to_string()`. -/
def utf8ErrorMessage : String := "invalid utf-8 sequence"

/-- `GitCli::run_git_command` (`src/git.rs:147`): run `git` with `args`;
on success return the stdout text trimmed, on non-zero exit fail with the
captured stderr, on spawn failure or invalid UTF-8 fail with that message.
All failures use `Error::GitCommandError`. -/
def run_git_command (env : GitEnv) (args : List String) : Except Error String :=
  match env.run args with
  | SpawnResult.spawnFailure msg => Except.error (Error.GitCommandError msg)
  | SpawnResult.ok out =>
    if out.success then
      match utf8Decode out.stdout with
      | some s => Except.ok (rustTrim s)
      | none => Except.error (Error.GitCommandError utf8ErrorMessage)
    else
      Except.error (Error.GitCommandError out.stderr)

/-- `GitCli::checkout_branch` (`src/git.rs:197`): `git checkout <branch>`;
fails with `GitCommandError` carrying the (lossy-decoded) stderr. -/
def checkout_branch (env : GitEnv) (branch : String) : Except Error Unit :=
  match env.run ["checkout", branch] with
  | SpawnResult.spawnFailure msg => Except.error (Error.GitCommandError msg)
  | SpawnResult.ok out =>
    if out.success then Except.ok ()
    else Except.error (Error.GitCommandError out.stderr)

/-- `GitCli::clone_repo` (`src/git.rs:103`): `git clone <url> <dir>`. -/
def clone_repo (env : GitEnv) (url : String) (dir : String) : Except Error Unit :=
  match env.run ["clone", url, dir] with
  | SpawnResult.spawnFailure msg => Except.error (Error.GitCommandError msg)
  | SpawnResult.ok out =>
    if out.success then Except.ok ()
    else Except.error (Error.GitCommandError out.stderr)

/-- The query used to discover the remote's symbolic HEAD short name. -/
def discoverDefaultBranchArgs : List String :=
  ["symbolic-ref", "refs/remotes/origin/HEAD", "--short"]

/-- Modelled from the spec: `discover_default_branch` is called by
`src/processor.rs` but its definition is absent from the sources.  Per the
spec (§3 TargetBranchResolution, §4.1, §8), it returns the remote's symbolic
HEAD short name and falls back to the literal `origin/main` when discovery
fails. -/
def discover_default_branch (env : GitEnv) : Except Error String :=
  match run_git_command env discoverDefaultBranchArgs with
  | Except.ok s => Except.ok s
  | Except.error _ => Except.ok "origin/main"

/-- The status-code match from the parsing loops:
`"A" => Added, "D" => Deleted, _ => Modified`. -/
def statusOf (status_str : String) : FileStatus :=
  match status_str with
  | "A" => FileStatus.Added
  | "D" => FileStatus.Deleted
  | _ => FileStatus.Modified

/-- One iteration of the parsing loop: the `parts.len() >= 2` guard with
`parts[0]` / `parts[1]` is rendered as a match on the split fields. -/
def insertLine (changes : ChangeMap) (line : String) : ChangeMap :=
  match splitWhitespace line with
  | status_str :: path_str :: _ =>
    ChangeMap.insert changes path_str ⟨path_str, statusOf status_str⟩
  | _ => changes

/-- The whole parsing loop over a list of lines. -/
def parseLines (ls : List String) : ChangeMap :=
  ls.foldl insertLine ChangeMap.empty

/-- Parse a full name-status output text, as both diff loops do. -/
def parse_name_status (output : String) : ChangeMap :=
  parseLines (rustLines output)

/-- Argument list of the branch-comparison diff
(`git diff --name-status --no-renames <target>...<branch>`). -/
def branchDiffArgs (branch_name target_branch : String) : List String :=
  ["diff", "--name-status", "--no-renames", target_branch ++ "..." ++ branch_name]

/-- `GitChangesProcessor::get_changes_for_branch` (`src/processor.rs:164`). -/
def get_changes_for_branch (env : GitEnv) (branch_name target_branch : String) :
    Except Error ChangeMap :=
  match run_git_command env (branchDiffArgs branch_name target_branch) with
  | Except.error e => Except.error e
  | Except.ok output => Except.ok (parse_name_status output)

/-- Rust `Result::is_ok`. -/
def exceptIsOk : Except Error String → Bool
  | Except.ok _ => true
  | Except.error _ => false

/-- `git cat-file -e <commit>` (local resolvability probe). -/
def catFileArgs (commit_hash : String) : List String :=
  ["cat-file", "-e", commit_hash]

/-- `git fetch origin <commit>`. -/
def fetchArgs (commit_hash : String) : List String :=
  ["fetch", "origin", commit_hash]

/-- `git diff --name-status --no-renames <commit>^ <commit>`. -/
def commitDiffArgs (commit_hash : String) : List String :=
  ["diff", "--name-status", "--no-renames", commit_hash ++ "^", commit_hash]

/-- `GitChangesProcessor::get_changes_for_commits` (`src/processor.rs:284`):
probe whether the commit resolves locally (`cat-file -e`), fetch it from
`origin` only if not, then diff it against its first parent and parse.  The
second component records the argument lists of the git invocations performed,
in order (the source performs them as side effects; the trace makes claims
about *which* commands run statable). -/
def get_changes_for_commits (env : GitEnv) (commit_hash : String) :
    Except Error ChangeMap × List (List String) :=
  if exceptIsOk (run_git_command env (catFileArgs commit_hash)) then
    match run_git_command env (commitDiffArgs commit_hash) with
    | Except.error e =>
      (Except.error e, [catFileArgs commit_hash, commitDiffArgs commit_hash])
    | Except.ok output =>
      (Except.ok (parse_name_status output),
       [catFileArgs commit_hash, commitDiffArgs commit_hash])
  else
    match run_git_command env (fetchArgs commit_hash) with
    | Except.error e =>
      (Except.error e, [catFileArgs commit_hash, fetchArgs commit_hash])
    | Except.ok _ =>
      match run_git_command env (commitDiffArgs commit_hash) with
      | Except.error e =>
        (Except.error e,
         [catFileArgs commit_hash, fetchArgs commit_hash,
          commitDiffArgs commit_hash])
      | Except.ok output =>
        (Except.ok (parse_name_status output),
         [catFileArgs commit_hash, fetchArgs commit_hash,
          commitDiffArgs commit_hash])

/-- `GitChangesProcessor::list_commit_changes` (`src/processor.rs:218`). -/
def list_commit_changes (env : GitEnv) (commit_hash : String) :
    Except Error ChangeMap :=
  (get_changes_for_commits env commit_hash).fst

/-- Modelled from the spec: the multi-commit driver for
`AnalysisTarget::Commits(Vec<String>)` is declared in `src/types.rs` but no
code consuming the commit *list* is among the sources
(`get_changes_for_commits` handles a single identifier).  Per spec §4.3
(commits target), each identifier is processed in caller order and the
per-commit maps merge into one running map, overlapping paths keeping the
last-processed commit's status. -/
def get_changes_for_commit_list (env : GitEnv) :
    List String → ChangeMap → Except Error ChangeMap
  | [], acc => Except.ok acc
  | c :: cs, acc =>
    match (get_changes_for_commits env c).fst with
    | Except.error e => Except.error e
    | Except.ok m => get_changes_for_commit_list env cs (ChangeMap.insertAll acc m)

/-- The per-commit change maps of a commit list, in caller order
(first error aborts, as each `?` in the source would). -/
def commitResults (env : GitEnv) : List String → Except Error (List ChangeMap)
  | [] => Except.ok []
  | c :: cs =>
    match (get_changes_for_commits env c).fst, commitResults env cs with
    | Except.ok m, Except.ok ms => Except.ok (m :: ms)
    | Except.error e, _ => Except.error e
    | Except.ok _, Except.error e => Except.error e

/-- `GitChangesProcessor::list_branch_changes` (`src/processor.rs:136`):
checkout the branch, then compute the comparison. -/
def list_branch_changes (env : GitEnv) (branch target_branch : String) :
    Except Error ChangeMap :=
  match checkout_branch env branch with
  | Except.error e => Except.error e
  | Except.ok _ => get_changes_for_branch env branch target_branch

/-- `GitChangesProcessor::list_changes_from_default_branch`
(`src/processor.rs:152`): checkout, discover the default branch, compare. -/
def list_changes_from_default_branch (env : GitEnv) (branch : String) :
    Except Error ChangeMap :=
  match checkout_branch env branch with
  | Except.error e => Except.error e
  | Except.ok _ =>
    match discover_default_branch env with
    | Except.error e => Except.error e
    | Except.ok target_branch => get_changes_for_branch env branch target_branch

/-- `output_dir.join(rel)`: the output path of one exported artifact. -/
structure OutPath where
  base : String
  rel : String
deriving DecidableEq, Repr

/-- Worker: split a character list at `'/'`. -/
def splitSlashAux : List Char → List Char → List String
  | [], acc => [String.mk acc.reverse]
  | c :: cs, acc =>
    if c = '/' then String.mk acc.reverse :: splitSlashAux cs []
    else splitSlashAux cs (c :: acc)

/-- The `'/'`-separated components of a relative path. -/
def splitSlash (s : String) : List String :=
  splitSlashAux s.data []

/-- Join path components with `'/'`. -/
def joinSlash : List String → String
  | [] => ""
  | [x] => x
  | x :: xs => x ++ "/" ++ joinSlash xs

/-- `Path::parent()` of `base.join(rel)`: `base.join(dir-part of rel)` when
`rel` has a directory part, else `base` itself. -/
def parentOf (p : OutPath) : String :=
  match (splitSlash p.rel).dropLast with
  | [] => p.base
  | ds => p.base ++ "/" ++ joinSlash ds

/-- A filesystem event performed by the exporter. -/
inductive FsEvent where
  | createDirAll (dir : String)
  | writeFile (path : OutPath)
deriving DecidableEq, Repr

/-- The filesystem state: written files (path to byte content) and the set of
directories known to exist.  `create_dir_all` also creates missing ancestor
directories; the model records the requested directory (no claim below
inspects ancestors). -/
structure FS where
  files : List (OutPath × List Nat)
  dirs : List String
deriving DecidableEq, Repr

/-- Remove any binding of `p` from a file list. -/
def eraseFile : List (OutPath × List Nat) → OutPath → List (OutPath × List Nat)
  | [], _ => []
  | (q, bs) :: rest, p =>
    if q = p then eraseFile rest p else (q, bs) :: eraseFile rest p

/-- Lookup in a file list (first match). -/
def findFileIn : List (OutPath × List Nat) → OutPath → Option (List Nat)
  | [], _ => none
  | (q, bs) :: rest, p => if q = p then some bs else findFileIn rest p

/-- The content of the file at `p`, if one has been written. -/
def findFile? (fs : FS) (p : OutPath) : Option (List Nat) :=
  findFileIn fs.files p

/-- `File::create` + `write_all`: create or overwrite `p` with `bytes`. -/
def writeFileFS (fs : FS) (p : OutPath) (bytes : List Nat) : FS :=
  { fs with files := (p, bytes) :: eraseFile fs.files p }

/-- `GitCli::run_git_command_to_file` (`src/git.rs:169`): run `git` with
`args`; only after the command succeeds, create the destination's parent
directory if missing and write the raw stdout bytes to the destination.
On any command failure the filesystem is untouched and no event occurs. -/
def run_git_command_to_file (env : GitEnv) (args : List String)
    (output_file_path : OutPath) (fs : FS) :
    Except Error Unit × FS × List FsEvent :=
  match env.run args with
  | SpawnResult.spawnFailure msg =>
    (Except.error (Error.GitCommandError msg), fs, [])
  | SpawnResult.ok out =>
    if out.success then
      if fs.dirs.contains (parentOf output_file_path) then
        (Except.ok (), writeFileFS fs output_file_path out.stdout,
         [FsEvent.writeFile output_file_path])
      else
        (Except.ok (),
         writeFileFS { fs with dirs := parentOf output_file_path :: fs.dirs }
           output_file_path out.stdout,
         [FsEvent.createDirAll (parentOf output_file_path),
          FsEvent.writeFile output_file_path])
    else
      (Except.error (Error.GitCommandError out.stderr), fs, [])

/-- One iteration of the export loop (shared verbatim between
`export_branch_changes` and `export_commit_changes` in the source, which
differ only in the `show`/`diff` argument lists, here parameters):
Added writes the content file, Modified writes the content file and the
`.diff` sibling, Deleted performs no filesystem action.  On failure the
state reached so far is kept (no rollback). -/
def export_entry (env : GitEnv) (output_dir : String)
    (showArgs diffFileArgs : String → List String)
    (fs : FS) (kv : String × FileChange) :
    Except Error Unit × FS × List FsEvent :=
  match (Prod.snd kv).status with
  | FileStatus.Added =>
    run_git_command_to_file env (showArgs (Prod.fst kv))
      ⟨output_dir, Prod.fst kv⟩ fs
  | FileStatus.Modified =>
    match run_git_command_to_file env (showArgs (Prod.fst kv))
        ⟨output_dir, Prod.fst kv⟩ fs with
    | (Except.error e, fs1, evs1) => (Except.error e, fs1, evs1)
    | (Except.ok _, fs1, evs1) =>
      let res2 := run_git_command_to_file env (diffFileArgs (Prod.fst kv))
        ⟨output_dir, Prod.fst kv ++ ".diff"⟩ fs1
      (res2.fst, res2.snd.fst, evs1 ++ res2.snd.snd)
  | FileStatus.Deleted => (Except.ok (), fs, [])

/-- The export loop over the entries of the change map (`for (path_str,
file_status) in &change_files`; the Rust map's iteration order is
unspecified — the list order stands in for it, and no theorem below depends
on it).  A failing entry aborts the remaining work, keeping prior writes. -/
def export_loop (env : GitEnv) (output_dir : String)
    (showArgs diffFileArgs : String → List String) :
    List (String × FileChange) → FS → Except Error Unit × FS × List FsEvent
  | [], fs => (Except.ok (), fs, [])
  | kv :: rest, fs =>
    match export_entry env output_dir showArgs diffFileArgs fs kv with
    | (Except.error e, fs1, evs1) => (Except.error e, fs1, evs1)
    | (Except.ok _, fs1, evs1) =>
      let res := export_loop env output_dir showArgs diffFileArgs rest fs1
      (res.fst, res.snd.fst, evs1 ++ res.snd.snd)

/-- `git show <branch>:<path>` for the branch exporter. -/
def branchShowArgs (branch : String) (path_str : String) : List String :=
  ["show", branch ++ ":" ++ path_str]

/-- `git diff <target>...<branch> -- <path>` for the branch exporter. -/
def branchDiffFileArgs (branch target_branch : String) (path_str : String) :
    List String :=
  ["diff", target_branch ++ "..." ++ branch, "--", path_str]

/-- `GitChangesProcessor::export_branch_changes` (`src/processor.rs:74`):
checkout the branch, compute the change map, then export per entry;
the computed map is returned on success. -/
def export_branch_changes (env : GitEnv) (fs : FS)
    (branch target_branch output_dir : String) :
    Except Error ChangeMap × FS × List FsEvent :=
  match checkout_branch env branch with
  | Except.error e => (Except.error e, fs, [])
  | Except.ok _ =>
    match get_changes_for_branch env branch target_branch with
    | Except.error e => (Except.error e, fs, [])
    | Except.ok change_files =>
      match export_loop env output_dir (branchShowArgs branch)
          (branchDiffFileArgs branch target_branch) change_files fs with
      | (Except.ok _, fs1, evs) => (Except.ok change_files, fs1, evs)
      | (Except.error e, fs1, evs) => (Except.error e, fs1, evs)

/-- `GitChangesProcessor::export_changes_from_default_branch`
(`src/processor.rs:57`): discover the default branch, then export against it. -/
def export_changes_from_default_branch (env : GitEnv) (fs : FS)
    (branch output_dir : String) :
    Except Error ChangeMap × FS × List FsEvent :=
  match discover_default_branch env with
  | Except.error e => (Except.error e, fs, [])
  | Except.ok target_branch =>
    export_branch_changes env fs branch target_branch output_dir

/-- `git show <commit>:<path>` for the commit exporter. -/
def commitShowArgs (commit_hash : String) (path_str : String) : List String :=
  ["show", commit_hash ++ ":" ++ path_str]

/-- `git diff <commit>^..<commit> -- <path>` for the commit exporter. -/
def commitDiffFileArgs (commit_hash : String) (path_str : String) :
    List String :=
  ["diff", commit_hash ++ "^.." ++ commit_hash, "--", path_str]

/-- `GitChangesProcessor::export_commit_changes` (`src/processor.rs:229`). -/
def export_commit_changes (env : GitEnv) (fs : FS)
    (commit_hash output_dir : String) :
    Except Error ChangeMap × FS × List FsEvent :=
  match (get_changes_for_commits env commit_hash).fst with
  | Except.error e => (Except.error e, fs, [])
  | Except.ok change_files =>
    match export_loop env output_dir (commitShowArgs commit_hash)
        (commitDiffFileArgs commit_hash) change_files fs with
    | (Except.ok _, fs1, evs) => (Except.ok change_files, fs1, evs)
    | (Except.error e, fs1, evs) => (Except.error e, fs1, evs)

/-! ## Processor construction (`src/processor.rs:14-49`) -/

/-- How the processor bound its repository. -/
inductive RepoSource where
  | clonedTemp (root : String)
  | localPath (path : String)
deriving DecidableEq, Repr

/-- `GitChangesProcessor`: holds the bound `GitCli`; only the provenance of
the bound tree is observable in the model. -/
structure GitChangesProcessor where
  source : RepoSource
deriving DecidableEq, Repr

/-- `GitChangesProcessor::new_from_local` (`src/processor.rs:17`). -/
def new_from_local (path : String) : Except Error GitChangesProcessor :=
  Except.ok ⟨RepoSource.localPath path⟩

/-- `GitChangesProcessor::new` (`src/processor.rs:32`): sources beginning
with `https://` or `git@` are cloned into a fresh temporary workspace;
anything else is a local filesystem path. -/
def GitChangesProcessor.new (env : GitEnv) (repo : String) :
    Except Error GitChangesProcessor :=
  if strBeginsWith "https://".data repo.data ||
      strBeginsWith "git@".data repo.data then
    match env.tempWorkspace with
    | Except.error e => Except.error (Error.TempDirError e)
    | Except.ok root =>
      match clone_repo env repo root with
      | Except.error e => Except.error e
      | Except.ok _ => Except.ok ⟨RepoSource.clonedTemp root⟩
  else
    new_from_local repo

/-! ## Characterizing the parsing loop -/

/-- The path field (second whitespace-separated field) of a name-status
line, when the line has at least two fields. -/
def lineKey? (line : String) : Option String :=
  match splitWhitespace line with
  | _ :: p :: _ => some p
  | _ => none

/-- The entry a name-status line contributes under key `p`, if any. -/
def lineEntry? (line : String) (p : String) : Option FileChange :=
  match splitWhitespace line with
  | c :: q :: _ => if q = p then some ⟨q, statusOf c⟩ else none
  | _ => none

/-- The path fields of the lines that have at least two fields. -/
def validPaths (ls : List String) : List String :=
  ls.filterMap lineKey?

/-- First line in the list contributing an entry for `p` determines the
result. -/
def firstLineHit : List String → String → Option FileChange
  | [], _ => none
  | l :: ls, p => optOr (lineEntry? l p) (firstLineHit ls p)

/-- The "directories only on demand" discipline of an event trace: every
directory-creation event is immediately followed by the write of a file whose
parent is exactly that directory. -/
def dirsOnDemand : List FsEvent → Bool
  | [] => true
  | FsEvent.createDirAll d :: rest =>
    match rest with
    | FsEvent.writeFile p :: _ => decide (parentOf p = d) && dirsOnDemand rest
    | _ => false
  | FsEvent.writeFile _ :: rest => dirsOnDemand rest

/-- A repository in which branch `b` (against target `t`) modifies `a` and
deletes `a.diff`: the exporter's diff artifact for `a` lands exactly at the
deleted path's output location. -/
def envC3 : GitEnv where
  run := fun args =>
    if args = ["checkout", "b"] then SpawnResult.ok ⟨true, [], ""⟩
    else if args = branchDiffArgs "b" "t" then
      SpawnResult.ok ⟨true, utf8Encode "M a\nD a.diff\n", ""⟩
    else if args = branchShowArgs "b" "a" then
      SpawnResult.ok ⟨true, utf8Encode "new content", ""⟩
    else if args = branchDiffFileArgs "b" "t" "a" then
      SpawnResult.ok ⟨true, utf8Encode "diff text", ""⟩
    else SpawnResult.spawnFailure "unexpected command"
  tempWorkspace := Except.error "unused"

/-- A repository whose branch comparison reports one Deleted path only. -/
def envC5 : GitEnv where
  run := fun args =>
    if args = ["checkout", "b"] then SpawnResult.ok ⟨true, [], ""⟩
    else if args = branchDiffArgs "b" "t" then
      SpawnResult.ok ⟨true, utf8Encode "D gone.txt", ""⟩
    else SpawnResult.spawnFailure "unexpected command"
  tempWorkspace := Except.error "unused"

/-- Two commits: `c1` adds `p`, `c2` (processed later) deletes `p`. -/
def envC2 : GitEnv where
  run := fun args =>
    if args = catFileArgs "c1" || args = catFileArgs "c2" then
      SpawnResult.ok ⟨true, [], ""⟩
    else if args = commitDiffArgs "c1" then
      SpawnResult.ok ⟨true, utf8Encode "A p", ""⟩
    else if args = commitDiffArgs "c2" then
      SpawnResult.ok ⟨true, utf8Encode "D p", ""⟩
    else SpawnResult.spawnFailure "unexpected command"
  tempWorkspace := Except.error "unused"

/-- A repository where remote-HEAD discovery fails. -/
def envC4 : GitEnv where
  run := fun args =>
    if args = discoverDefaultBranchArgs then
      SpawnResult.ok ⟨false, [], "no head"⟩
    else SpawnResult.spawnFailure "unexpected command"
  tempWorkspace := Except.error "unused"

/-- One command per outcome of interest for the query contract. -/
def envC6 : GitEnv where
  run := fun args =>
    if args = ["boom"] then SpawnResult.spawnFailure "spawn failed"
    else if args = ["status"] then
      SpawnResult.ok ⟨true, utf8Encode " hi ", ""⟩
    else if args = ["bad"] then SpawnResult.ok ⟨true, [0xFF], ""⟩
    else SpawnResult.ok ⟨false, [], "git error"⟩
  tempWorkspace := Except.error "unused"

/-- The commit `c` is not resolvable locally and its fetch fails. -/
def envC7 : GitEnv where
  run := fun args =>
    if args = catFileArgs "c" then SpawnResult.ok ⟨false, [], "missing"⟩
    else if args = fetchArgs "c" then
      SpawnResult.ok ⟨false, [], "fetchfail"⟩
    else SpawnResult.spawnFailure "unexpected command"
  tempWorkspace := Except.error "unused"

/-- A clonable remote plus a temporary workspace. -/
def envC8 : GitEnv where
  run := fun args =>
    if args = ["clone", "https://x", "tmp"] then SpawnResult.ok ⟨true, [], ""⟩
    else SpawnResult.spawnFailure "unexpected command"
  tempWorkspace := Except.ok "tmp"

/-- Every command exits non-zero. -/
def envC9 : GitEnv where
  run := fun _ => SpawnResult.ok ⟨false, [], "boom"⟩
  tempWorkspace := Except.error "unused"

theorem ChangeMap.find?_erase (m : ChangeMap) (k p : String) :
    ChangeMap.find? (ChangeMap.erase m k) p =
      if k = p then none else ChangeMap.find? m p := by
  induction m with
  | nil => simp [ChangeMap.erase, ChangeMap.find?]
  | cons kv rest ih =>
    obtain ⟨k', v⟩ := kv
    by_cases hk : k' = k
    · subst hk
      by_cases hp : k' = p
      · subst hp
        simp [ChangeMap.erase, ChangeMap.find?, ih]
      · simp [ChangeMap.erase, ChangeMap.find?, hp, ih]
    · by_cases hp : k' = p
      · subst hp
        have : ¬ k = k' := fun h => hk h.symm
        simp [ChangeMap.erase, ChangeMap.find?, hk, this]
      · simp [ChangeMap.erase, ChangeMap.find?, hk, hp, ih]

theorem ChangeMap.find?_insert (m : ChangeMap) (k p : String) (v : FileChange) :
    ChangeMap.find? (ChangeMap.insert m k v) p =
      if k = p then some v else ChangeMap.find? m p := by
  by_cases hp : k = p
  · subst hp
    simp [ChangeMap.insert, ChangeMap.find?]
  · simp [ChangeMap.insert, ChangeMap.find?, hp, ChangeMap.find?_erase]

theorem ChangeMap.not_mem_keys_erase (m : ChangeMap) (k : String) :
    k ∉ ChangeMap.keys (ChangeMap.erase m k) := by
  induction m with
  | nil => simp [ChangeMap.erase, ChangeMap.keys]
  | cons kv rest ih =>
    obtain ⟨k', v⟩ := kv
    by_cases hk : k' = k
    · simpa [ChangeMap.erase, hk] using ih
    · simp only [ChangeMap.erase, hk, if_false, ChangeMap.keys, List.map_cons,
        List.mem_cons]
      rintro (h | h)
      · exact hk h.symm
      · exact ih h

theorem ChangeMap.keys_erase_sublist (m : ChangeMap) (k : String) :
    (ChangeMap.keys (ChangeMap.erase m k)).Sublist (ChangeMap.keys m) := by
  induction m with
  | nil => simp [ChangeMap.erase, ChangeMap.keys]
  | cons kv rest ih =>
    obtain ⟨k', v⟩ := kv
    by_cases hk : k' = k
    · simp only [ChangeMap.erase, hk, if_true, ChangeMap.keys, List.map_cons]
      exact ih.cons _
    · simp only [ChangeMap.erase, hk, if_false, ChangeMap.keys, List.map_cons]
      exact ih.cons₂ _

theorem ChangeMap.nodupKeys_insert (m : ChangeMap) (k : String) (v : FileChange)
    (h : ChangeMap.NodupKeys m) :
    ChangeMap.NodupKeys (ChangeMap.insert m k v) := by
  unfold ChangeMap.NodupKeys at *
  simp only [ChangeMap.insert, ChangeMap.keys, List.map_cons, List.nodup_cons]
  exact ⟨ChangeMap.not_mem_keys_erase m k,
    h.sublist (ChangeMap.keys_erase_sublist m k)⟩

theorem ChangeMap.nodupKeys_empty : ChangeMap.NodupKeys ChangeMap.empty := by
  simp [ChangeMap.NodupKeys, ChangeMap.empty, ChangeMap.keys]

theorem ChangeMap.find?_eq_none_of_not_mem_keys (m : ChangeMap) (k : String)
    (h : k ∉ ChangeMap.keys m) : ChangeMap.find? m k = none := by
  induction m with
  | nil => simp [ChangeMap.find?]
  | cons kv rest ih =>
    obtain ⟨k', v⟩ := kv
    simp only [ChangeMap.keys, List.map_cons, List.mem_cons, not_or] at h
    have hne : ¬ k' = k := fun hk => h.1 hk.symm
    simp [ChangeMap.find?, hne, ih (by simpa [ChangeMap.keys] using h.2)]

theorem ChangeMap.mem_of_find?_eq_some (m : ChangeMap) (k : String)
    (v : FileChange) (h : ChangeMap.find? m k = some v) : (k, v) ∈ m := by
  induction m with
  | nil => simp [ChangeMap.find?] at h
  | cons kv rest ih =>
    obtain ⟨k', v'⟩ := kv
    by_cases hk : k' = k
    · subst hk
      simp only [ChangeMap.find?, if_true] at h
      simp [← Option.some_inj.mp h]
    · simp only [ChangeMap.find?, hk, if_false] at h
      exact List.mem_cons_of_mem _ (ih h)

theorem ChangeMap.find?_eq_some_of_mem (m : ChangeMap) (k : String)
    (v : FileChange) (hnd : ChangeMap.NodupKeys m) (h : (k, v) ∈ m) :
    ChangeMap.find? m k = some v := by
  induction m with
  | nil => simp at h
  | cons kv rest ih =>
    obtain ⟨k', v'⟩ := kv
    unfold ChangeMap.NodupKeys ChangeMap.keys at hnd
    simp only [List.map_cons, List.nodup_cons] at hnd
    rcases List.mem_cons.mp h with heq | hmem
    · injection heq with h1 h2
      simp [ChangeMap.find?, h1, h2]
    · have hne : k' ≠ k := by
        intro hkk
        subst hkk
        exact hnd.1 (List.mem_map.mpr ⟨(k', v), hmem, rfl⟩)
      simp only [ChangeMap.find?, hne, if_false]
      exact ih hnd.2 hmem

theorem optOr_none_right (a : Option FileChange) : optOr a none = a := by
  cases a <;> rfl

theorem optOr_assoc (a b c : Option FileChange) :
    optOr (optOr a b) c = optOr a (optOr b c) := by
  cases a <;> rfl

theorem firstHit_append (ms ns : List ChangeMap) (p : String) :
    firstHit (ms ++ ns) p = optOr (firstHit ms p) (firstHit ns p) := by
  induction ms with
  | nil => rfl
  | cons m ms ih => simp [firstHit, ih, optOr_assoc]

theorem ChangeMap.find?_insertAll (src : ChangeMap) (dst : ChangeMap)
    (p : String) (hnd : ChangeMap.NodupKeys src) :
    ChangeMap.find? (ChangeMap.insertAll dst src) p =
      optOr (ChangeMap.find? src p) (ChangeMap.find? dst p) := by
  induction src generalizing dst with
  | nil => simp [ChangeMap.insertAll, ChangeMap.find?, optOr]
  | cons kv rest ih =>
    obtain ⟨k, v⟩ := kv
    unfold ChangeMap.NodupKeys ChangeMap.keys at hnd
    simp only [List.map_cons, List.nodup_cons] at hnd
    have step : ChangeMap.insertAll dst ((k, v) :: rest) =
        ChangeMap.insertAll (ChangeMap.insert dst k v) rest := rfl
    rw [step, ih (ChangeMap.insert dst k v) hnd.2]
    by_cases hp : k = p
    · subst hp
      have hrest : ChangeMap.find? rest k = none :=
        ChangeMap.find?_eq_none_of_not_mem_keys rest k
          (by simpa [ChangeMap.keys] using hnd.1)
      simp [ChangeMap.find?, hrest, ChangeMap.find?_insert, optOr]
    · simp [ChangeMap.find?, hp, ChangeMap.find?_insert, ChangeMap.find?_erase]

theorem ChangeMap.find?_mergeAll (ms : List ChangeMap) (p : String)
    (hnd : ∀ m ∈ ms, ChangeMap.NodupKeys m) :
    ChangeMap.find? (ChangeMap.mergeAll ms) p = firstHit ms.reverse p := by
  suffices h : ∀ dst, (∀ m ∈ ms, ChangeMap.NodupKeys m) →
      ChangeMap.find? (ms.foldl ChangeMap.insertAll dst) p =
        optOr (firstHit ms.reverse p) (ChangeMap.find? dst p) by
    have := h ChangeMap.empty hnd
    simpa [ChangeMap.mergeAll, ChangeMap.empty, ChangeMap.find?,
      optOr_none_right] using this
  clear hnd
  induction ms with
  | nil => intro dst hnd; simp [firstHit, optOr]
  | cons m ms ih =>
    intro dst hnd
    have hm := hnd m (List.mem_cons_self m ms)
    have hms : ∀ m' ∈ ms, ChangeMap.NodupKeys m' :=
      fun m' hm' => hnd m' (List.mem_cons_of_mem m hm')
    simp only [List.foldl_cons, List.reverse_cons]
    rw [ih (ChangeMap.insertAll dst m) hms, firstHit_append,
      ChangeMap.find?_insertAll m dst p hm]
    simp [firstHit, optOr_none_right, optOr_assoc]

theorem ChangeMap.pathKeyed_empty : ChangeMap.PathKeyed ChangeMap.empty := by
  intro kv h
  simp [ChangeMap.empty] at h

theorem ChangeMap.pathKeyed_erase (m : ChangeMap) (k : String)
    (h : ChangeMap.PathKeyed m) : ChangeMap.PathKeyed (ChangeMap.erase m k) := by
  induction m with
  | nil => intro kv hkv; simp [ChangeMap.erase] at hkv
  | cons kv₀ rest ih =>
    obtain ⟨k', v⟩ := kv₀
    have hrest : ChangeMap.PathKeyed rest :=
      fun kv hkv => h kv (List.mem_cons_of_mem _ hkv)
    intro kv hkv
    by_cases hk : k' = k
    · simp only [ChangeMap.erase, hk, if_true] at hkv
      exact ih hrest kv hkv
    · simp only [ChangeMap.erase, hk, if_false] at hkv
      rcases List.mem_cons.mp hkv with heq | hmem
      · exact heq ▸ h (k', v) (List.mem_cons_self _ _)
      · exact ih hrest kv hmem

theorem ChangeMap.pathKeyed_insert (m : ChangeMap) (k : String) (v : FileChange)
    (hv : v.path = k) (h : ChangeMap.PathKeyed m) :
    ChangeMap.PathKeyed (ChangeMap.insert m k v) := by
  intro kv hkv
  rcases List.mem_cons.mp hkv with heq | hmem
  · subst heq; exact hv
  · exact ChangeMap.pathKeyed_erase m k h kv hmem

theorem ChangeMap.pathKeyed_insertAll (dst src : ChangeMap)
    (hdst : ChangeMap.PathKeyed dst) (hsrc : ChangeMap.PathKeyed src) :
    ChangeMap.PathKeyed (ChangeMap.insertAll dst src) := by
  induction src generalizing dst with
  | nil => exact hdst
  | cons kv rest ih =>
    obtain ⟨k, v⟩ := kv
    have hrest : ChangeMap.PathKeyed rest :=
      fun kv hkv => hsrc kv (List.mem_cons_of_mem _ hkv)
    have hv : v.path = k := hsrc (k, v) (List.mem_cons_self _ _)
    exact ih (ChangeMap.insert dst k v)
      (ChangeMap.pathKeyed_insert dst k v hv hdst) hrest

theorem ChangeMap.pathKeyed_find? (m : ChangeMap) (h : ChangeMap.PathKeyed m)
    (k : String) (v : FileChange) (hfind : ChangeMap.find? m k = some v) :
    v.path = k :=
  h (k, v) (ChangeMap.mem_of_find?_eq_some m k v hfind)

theorem firstLineHit_append (ls ns : List String) (p : String) :
    firstLineHit (ls ++ ns) p = optOr (firstLineHit ls p) (firstLineHit ns p) := by
  induction ls with
  | nil => rfl
  | cons l ls ih => simp [firstLineHit, ih, optOr_assoc]

theorem find?_insertLine (a : ChangeMap) (l : String) (p : String) :
    ChangeMap.find? (insertLine a l) p =
      optOr (lineEntry? l p) (ChangeMap.find? a p) := by
  unfold insertLine lineEntry?
  rcases hsp : splitWhitespace l with _ | ⟨c, _ | ⟨q, rest⟩⟩
  · simp [hsp, optOr]
  · simp [hsp, optOr]
  · by_cases hq : q = p
    · subst hq
      simp [hsp, ChangeMap.find?_insert, optOr]
    · simp [hsp, ChangeMap.find?_insert, hq, optOr]

theorem find?_foldl_insertLine (ls : List String) (a : ChangeMap) (p : String) :
    ChangeMap.find? (ls.foldl insertLine a) p =
      optOr (firstLineHit ls.reverse p) (ChangeMap.find? a p) := by
  induction ls generalizing a with
  | nil => simp [firstLineHit, optOr]
  | cons l ls ih =>
    simp only [List.foldl_cons, List.reverse_cons]
    rw [ih (insertLine a l), firstLineHit_append, find?_insertLine,
      optOr_assoc]
    simp [firstLineHit, optOr_none_right]

theorem find?_parseLines (ls : List String) (p : String) :
    ChangeMap.find? (parseLines ls) p = firstLineHit ls.reverse p := by
  unfold parseLines
  rw [find?_foldl_insertLine]
  simp [ChangeMap.empty, ChangeMap.find?, optOr_none_right]

theorem nodupKeys_parseLines (ls : List String) :
    ChangeMap.NodupKeys (parseLines ls) := by
  unfold parseLines
  suffices h : ∀ a, ChangeMap.NodupKeys a → ChangeMap.NodupKeys (ls.foldl insertLine a) from
    h ChangeMap.empty ChangeMap.nodupKeys_empty
  induction ls with
  | nil => intro a ha; exact ha
  | cons l ls ih =>
    intro a ha
    refine ih (insertLine a l) ?_
    unfold insertLine
    rcases splitWhitespace l with _ | ⟨c, _ | ⟨q, rest⟩⟩
    · exact ha
    · exact ha
    · exact ChangeMap.nodupKeys_insert a q _ ha

theorem pathKeyed_parseLines (ls : List String) :
    ChangeMap.PathKeyed (parseLines ls) := by
  unfold parseLines
  suffices h : ∀ a, ChangeMap.PathKeyed a → ChangeMap.PathKeyed (ls.foldl insertLine a) from
    h ChangeMap.empty ChangeMap.pathKeyed_empty
  induction ls with
  | nil => intro a ha; exact ha
  | cons l ls ih =>
    intro a ha
    refine ih (insertLine a l) ?_
    unfold insertLine
    rcases splitWhitespace l with _ | ⟨c, _ | ⟨q, rest⟩⟩
    · exact ha
    · exact ha
    · exact ChangeMap.pathKeyed_insert a q _ rfl ha

theorem lineKey?_of_lineEntry? (l p : String) (v : FileChange)
    (h : lineEntry? l p = some v) : lineKey? l = some p := by
  unfold lineEntry? at h
  unfold lineKey?
  rcases hsp : splitWhitespace l with _ | ⟨c, _ | ⟨q, rest⟩⟩
  · simp [hsp] at h
  · simp [hsp] at h
  · by_cases hq : q = p
    · simp [hq]
    · simp [hsp, hq] at h

theorem exists_of_firstLineHit (ls : List String) (p : String) (v : FileChange)
    (h : firstLineHit ls p = some v) :
    ∃ l ∈ ls, lineEntry? l p = some v := by
  induction ls with
  | nil => simp [firstLineHit] at h
  | cons l ls ih =>
    unfold firstLineHit optOr at h
    rcases he : lineEntry? l p with _ | w
    · rw [he] at h
      obtain ⟨l', hl', hv⟩ := ih h
      exact ⟨l', List.mem_cons_of_mem _ hl', hv⟩
    · rw [he] at h
      exact ⟨l, List.mem_cons_self _ _, he.trans h⟩

theorem firstLineHit_of_mem (ls : List String) (l p : String) (v : FileChange)
    (hnd : (validPaths ls).Nodup) (hl : l ∈ ls)
    (hv : lineEntry? l p = some v) : firstLineHit ls p = some v := by
  induction ls with
  | nil => simp at hl
  | cons x xs ih =>
    have hkey : lineKey? l = some p := lineKey?_of_lineEntry? l p v hv
    rcases List.mem_cons.mp hl with heq | hmem
    · subst heq
      simp [firstLineHit, hv, optOr]
    · have hx : lineEntry? x p = none := by
        rcases he : lineEntry? x p with _ | w
        · rfl
        · exfalso
          have hxkey : lineKey? x = some p := lineKey?_of_lineEntry? x p w he
          have hmemp : p ∈ validPaths xs :=
            List.mem_filterMap.mpr ⟨l, hmem, hkey⟩
          have : validPaths (x :: xs) = p :: validPaths xs := by
            simp [validPaths, List.filterMap_cons, hxkey]
          rw [this] at hnd
          exact (List.nodup_cons.mp hnd).1 hmemp
      have hnd' : (validPaths xs).Nodup := by
        unfold validPaths at hnd ⊢
        rcases hk : lineKey? x with _ | q
        · simpa [List.filterMap_cons, hk] using hnd
        · rw [show List.filterMap lineKey? (x :: xs) =
            q :: List.filterMap lineKey? xs by simp [List.filterMap_cons, hk]] at hnd
          exact (List.nodup_cons.mp hnd).2
      simp [firstLineHit, hx, optOr, ih hnd' hmem]

/-! ## Properties of the export machinery -/

theorem findFileIn_eraseFile (l : List (OutPath × List Nat)) (p q : OutPath) :
    findFileIn (eraseFile l p) q = if p = q then none else findFileIn l q := by
  induction l with
  | nil => simp [eraseFile, findFileIn]
  | cons e rest ih =>
    obtain ⟨r, bs⟩ := e
    by_cases hr : r = p
    · subst hr
      by_cases hq : r = q
      · subst hq
        simp [eraseFile, findFileIn, ih]
      · simp [eraseFile, findFileIn, hq, ih]
    · by_cases hq : r = q
      · subst hq
        have : ¬ p = r := fun h => hr h.symm
        simp [eraseFile, findFileIn, hr, this]
      · simp [eraseFile, findFileIn, hr, hq, ih]

theorem findFile?_writeFileFS (fs : FS) (p q : OutPath) (bytes : List Nat) :
    findFile? (writeFileFS fs p bytes) q =
      if p = q then some bytes else findFile? fs q := by
  by_cases hq : p = q
  · subst hq
    simp [writeFileFS, findFile?, findFileIn]
  · simp [writeFileFS, findFile?, findFileIn, hq, findFileIn_eraseFile]

/-- On spawn failure or non-zero exit, `run_git_command_to_file` fails and
leaves the filesystem untouched, performing no event. -/
theorem rgctf_err_state (env : GitEnv) (args : List String) (p : OutPath)
    (fs : FS) (e : Error) (fs' : FS) (evs : List FsEvent)
    (h : run_git_command_to_file env args p fs = (Except.error e, fs', evs)) :
    fs' = fs ∧ evs = [] := by
  unfold run_git_command_to_file at h
  split at h
  · simp only [Prod.mk.injEq] at h
    exact ⟨h.2.1.symm, h.2.2.symm⟩
  · split at h
    · split at h
      · simp at h
      · simp at h
    · simp only [Prod.mk.injEq] at h
      exact ⟨h.2.1.symm, h.2.2.symm⟩

/-- Full description of a successful `run_git_command_to_file` call. -/
theorem rgctf_ok_state (env : GitEnv) (args : List String) (p : OutPath)
    (fs : FS) (u : Unit) (fs' : FS) (evs : List FsEvent)
    (h : run_git_command_to_file env args p fs = (Except.ok u, fs', evs)) :
    ∃ out, env.run args = SpawnResult.ok out ∧ out.success = true ∧
      ((fs.dirs.contains (parentOf p) = true ∧
        fs' = writeFileFS fs p out.stdout ∧
        evs = [FsEvent.writeFile p]) ∨
       (fs.dirs.contains (parentOf p) = false ∧
        fs' = writeFileFS { fs with dirs := parentOf p :: fs.dirs } p out.stdout ∧
        evs = [FsEvent.createDirAll (parentOf p), FsEvent.writeFile p])) := by
  unfold run_git_command_to_file at h
  split at h
  · simp at h
  · rename_i out hr
    split at h
    · rename_i hs
      split at h
      · rename_i hd
        simp only [Prod.mk.injEq] at h
        exact ⟨out, hr, hs, Or.inl ⟨hd, h.2.1.symm, h.2.2.symm⟩⟩
      · rename_i hd
        have hd' : fs.dirs.contains (parentOf p) = false := by simpa using hd
        simp only [Prod.mk.injEq] at h
        exact ⟨out, hr, hs, Or.inr ⟨hd', h.2.1.symm, h.2.2.symm⟩⟩
    · simp at h

/-- A failing command yields exactly the error triple (claim C9's shape). -/
theorem rgctf_err_of_run (env : GitEnv) (args : List String) (p : OutPath)
    (fs : FS) :
    (∀ msg, env.run args = SpawnResult.spawnFailure msg →
      run_git_command_to_file env args p fs =
        (Except.error (Error.GitCommandError msg), fs, [])) ∧
    (∀ out, env.run args = SpawnResult.ok out → out.success = false →
      run_git_command_to_file env args p fs =
        (Except.error (Error.GitCommandError out.stderr), fs, [])) := by
  constructor
  · intro msg hr
    unfold run_git_command_to_file
    rw [hr]
  · intro out hr hs
    unfold run_git_command_to_file
    rw [hr]
    simp [hs]

/-- Off the destination path, `run_git_command_to_file` changes no file. -/
theorem rgctf_off_target (env : GitEnv) (args : List String) (p : OutPath)
    (fs : FS) (r : Except Error Unit) (fs' : FS) (evs : List FsEvent)
    (h : run_git_command_to_file env args p fs = (r, fs', evs))
    (q : OutPath) (hq : q ≠ p) : findFile? fs' q = findFile? fs q := by
  rcases r with e | u
  · obtain ⟨hfs, _⟩ := rgctf_err_state env args p fs e fs' evs h
    rw [hfs]
  · obtain ⟨out, _, _, hcase⟩ := rgctf_ok_state env args p fs u fs' evs h
    have hne : ¬ p = q := fun hpq => hq hpq.symm
    rcases hcase with ⟨_, hfs, _⟩ | ⟨_, hfs, _⟩
    · rw [hfs, findFile?_writeFileFS, if_neg hne]
    · rw [hfs, findFile?_writeFileFS, if_neg hne]
      simp [findFile?]

/-- On success, the destination file exists afterwards. -/
theorem rgctf_ok_target (env : GitEnv) (args : List String) (p : OutPath)
    (fs : FS) (u : Unit) (fs' : FS) (evs : List FsEvent)
    (h : run_git_command_to_file env args p fs = (Except.ok u, fs', evs)) :
    (findFile? fs' p).isSome = true := by
  obtain ⟨out, _, _, hcase⟩ := rgctf_ok_state env args p fs u fs' evs h
  rcases hcase with ⟨_, hfs, _⟩ | ⟨_, hfs, _⟩ <;>
    rw [hfs, findFile?_writeFileFS, if_pos rfl] <;> rfl

/-- Existing files persist across `run_git_command_to_file`. -/
theorem rgctf_mono (env : GitEnv) (args : List String) (p : OutPath)
    (fs : FS) (r : Except Error Unit) (fs' : FS) (evs : List FsEvent)
    (h : run_git_command_to_file env args p fs = (r, fs', evs))
    (q : OutPath) (hq : (findFile? fs q).isSome = true) :
    (findFile? fs' q).isSome = true := by
  by_cases hpq : q = p
  · subst hpq
    rcases r with e | u
    · obtain ⟨hfs, _⟩ := rgctf_err_state env args q fs e fs' evs h
      rw [hfs]; exact hq
    · exact rgctf_ok_target env args q fs u fs' evs h
  · rw [rgctf_off_target env args p fs r fs' evs h q hpq]
    exact hq

/-- The events of one `run_git_command_to_file` call form one of the three
legal blocks for its destination. -/
theorem rgctf_events (env : GitEnv) (args : List String) (p : OutPath)
    (fs : FS) (r : Except Error Unit) (fs' : FS) (evs : List FsEvent)
    (h : run_git_command_to_file env args p fs = (r, fs', evs)) :
    evs = [] ∨ evs = [FsEvent.writeFile p] ∨
      evs = [FsEvent.createDirAll (parentOf p), FsEvent.writeFile p] := by
  rcases r with e | u
  · obtain ⟨_, hevs⟩ := rgctf_err_state env args p fs e fs' evs h
    exact Or.inl hevs
  · obtain ⟨out, _, _, hcase⟩ := rgctf_ok_state env args p fs u fs' evs h
    rcases hcase with ⟨_, _, hevs⟩ | ⟨_, _, hevs⟩
    · exact Or.inr (Or.inl hevs)
    · exact Or.inr (Or.inr hevs)

theorem dirsOnDemand_block_append (p : OutPath) (evs1 evs2 : List FsEvent)
    (hblock : evs1 = [] ∨ evs1 = [FsEvent.writeFile p] ∨
      evs1 = [FsEvent.createDirAll (parentOf p), FsEvent.writeFile p])
    (h2 : dirsOnDemand evs2 = true) :
    dirsOnDemand (evs1 ++ evs2) = true := by
  rcases hblock with h | h | h <;> subst h
  · simpa using h2
  · simpa [dirsOnDemand] using h2
  · simp [dirsOnDemand, h2]

/-- Entries never delete files: existence persists across one entry. -/
theorem export_entry_mono (env : GitEnv) (od : String)
    (sh df : String → List String) (fs : FS) (kv : String × FileChange)
    (r : Except Error Unit) (fs1 : FS) (evs : List FsEvent)
    (h : export_entry env od sh df fs kv = (r, fs1, evs))
    (x : OutPath) (hx : (findFile? fs x).isSome = true) :
    (findFile? fs1 x).isSome = true := by
  unfold export_entry at h
  split at h
  · exact rgctf_mono env _ _ fs r fs1 evs h x hx
  · split at h
    · rename_i e fse evse heq
      simp only [Prod.mk.injEq] at h
      rw [← h.2.1]
      exact rgctf_mono env _ _ fs _ fse evse heq x hx
    · rename_i u fsa evsa heq
      rcases hres : run_git_command_to_file env (df (Prod.fst kv))
          ⟨od, Prod.fst kv ++ ".diff"⟩ fsa with ⟨r2, fs2, evs2⟩
      rw [hres] at h
      simp only [Prod.mk.injEq] at h
      rw [← h.2.1]
      exact rgctf_mono env _ _ fsa r2 fs2 evs2 hres x
        (rgctf_mono env _ _ fs _ fsa evsa heq x hx)
  · simp only [Prod.mk.injEq] at h
    rw [← h.2.1]
    exact hx

/-- On files other than its own two destinations, one entry changes
nothing. -/
theorem export_entry_off_target (env : GitEnv) (od : String)
    (sh df : String → List String) (fs : FS) (kv : String × FileChange)
    (r : Except Error Unit) (fs1 : FS) (evs : List FsEvent)
    (h : export_entry env od sh df fs kv = (r, fs1, evs))
    (x : OutPath)
    (hx1 : (Prod.snd kv).status = FileStatus.Added ∨
      (Prod.snd kv).status = FileStatus.Modified → x ≠ ⟨od, Prod.fst kv⟩)
    (hx2 : (Prod.snd kv).status = FileStatus.Modified →
      x ≠ ⟨od, Prod.fst kv ++ ".diff"⟩) :
    findFile? fs1 x = findFile? fs x := by
  unfold export_entry at h
  split at h
  · rename_i hst
    exact rgctf_off_target env _ _ fs r fs1 evs h x (hx1 (Or.inl hst))
  · rename_i hst
    split at h
    · rename_i e fse evse heq
      simp only [Prod.mk.injEq] at h
      rw [← h.2.1]
      exact rgctf_off_target env _ _ fs _ fse evse heq x (hx1 (Or.inr hst))
    · rename_i u fsa evsa heq
      rcases hres : run_git_command_to_file env (df (Prod.fst kv))
          ⟨od, Prod.fst kv ++ ".diff"⟩ fsa with ⟨r2, fs2, evs2⟩
      rw [hres] at h
      simp only [Prod.mk.injEq] at h
      rw [← h.2.1]
      rw [rgctf_off_target env _ _ fsa r2 fs2 evs2 hres x (hx2 hst)]
      exact rgctf_off_target env _ _ fs _ fsa evsa heq x (hx1 (Or.inr hst))
  · simp only [Prod.mk.injEq] at h
    rw [← h.2.1]

/-- A successful entry has produced its mandated files: the content file for
Added and Modified, and additionally the `.diff` file for Modified. -/
theorem export_entry_ok_writes (env : GitEnv) (od : String)
    (sh df : String → List String) (fs : FS) (kv : String × FileChange)
    (u : Unit) (fs1 : FS) (evs : List FsEvent)
    (h : export_entry env od sh df fs kv = (Except.ok u, fs1, evs)) :
    (((Prod.snd kv).status = FileStatus.Added ∨
      (Prod.snd kv).status = FileStatus.Modified) →
      (findFile? fs1 ⟨od, Prod.fst kv⟩).isSome = true) ∧
    ((Prod.snd kv).status = FileStatus.Modified →
      (findFile? fs1 ⟨od, Prod.fst kv ++ ".diff"⟩).isSome = true) := by
  unfold export_entry at h
  split at h
  · rename_i hst
    refine ⟨fun _ => rgctf_ok_target env _ _ fs u fs1 evs h, fun hmod => ?_⟩
    rw [hst] at hmod
    cases hmod
  · rename_i hst
    split at h
    · simp at h
    · rename_i u' fsa evsa heq
      rcases hres : run_git_command_to_file env (df (Prod.fst kv))
          ⟨od, Prod.fst kv ++ ".diff"⟩ fsa with ⟨r2, fs2, evs2⟩
      rw [hres] at h
      simp only [Prod.mk.injEq] at h
      obtain ⟨hr2, hfs2, _⟩ := h
      subst hfs2
      have hr2ok : r2 = Except.ok u := hr2
      subst hr2ok
      constructor
      · intro _
        exact rgctf_mono env _ _ fsa _ fs2 evs2 hres _
          (rgctf_ok_target env _ _ fs u' fsa evsa heq)
      · intro _
        exact rgctf_ok_target env _ _ fsa u fs2 evs2 hres
  · rename_i hst
    constructor
    · intro hor
      rw [hst] at hor
      rcases hor with hc | hc <;> cases hc
    · intro hmod
      rw [hst] at hmod
      cases hmod

/-- The events of one entry, prefixed to any trace respecting the on-demand
discipline, still respect it. -/
theorem export_entry_dod (env : GitEnv) (od : String)
    (sh df : String → List String) (fs : FS) (kv : String × FileChange)
    (r : Except Error Unit) (fs1 : FS) (evs : List FsEvent)
    (h : export_entry env od sh df fs kv = (r, fs1, evs))
    (tail : List FsEvent) (htail : dirsOnDemand tail = true) :
    dirsOnDemand (evs ++ tail) = true := by
  unfold export_entry at h
  split at h
  · exact dirsOnDemand_block_append _ evs tail
      (rgctf_events env _ _ fs r fs1 evs h) htail
  · split at h
    · rename_i e fse evse heq
      simp only [Prod.mk.injEq] at h
      rw [← h.2.2]
      exact dirsOnDemand_block_append _ evse tail
        (rgctf_events env _ _ fs _ fse evse heq) htail
    · rename_i u fsa evsa heq
      rcases hres : run_git_command_to_file env (df (Prod.fst kv))
          ⟨od, Prod.fst kv ++ ".diff"⟩ fsa with ⟨r2, fs2, evs2⟩
      rw [hres] at h
      simp only [Prod.mk.injEq] at h
      rw [← h.2.2, List.append_assoc]
      refine dirsOnDemand_block_append _ evsa _
        (rgctf_events env _ _ fs _ fsa evsa heq) ?_
      exact dirsOnDemand_block_append _ evs2 tail
        (rgctf_events env _ _ fsa r2 fs2 evs2 hres) htail
  · simp only [Prod.mk.injEq] at h
    rw [← h.2.2]
    simpa using htail

/-- Files never disappear across the export loop. -/
theorem export_loop_mono (env : GitEnv) (od : String)
    (sh df : String → List String) (entries : List (String × FileChange))
    (fs : FS) (r : Except Error Unit) (fs' : FS) (evs : List FsEvent)
    (h : export_loop env od sh df entries fs = (r, fs', evs))
    (x : OutPath) (hx : (findFile? fs x).isSome = true) :
    (findFile? fs' x).isSome = true := by
  induction entries generalizing fs r fs' evs with
  | nil =>
    simp only [export_loop, Prod.mk.injEq] at h
    rw [← h.2.1]
    exact hx
  | cons kv rest ih =>
    simp only [export_loop] at h
    split at h
    · rename_i e fs1 evs1 heq
      simp only [Prod.mk.injEq] at h
      rw [← h.2.1]
      exact export_entry_mono env od sh df fs kv _ fs1 evs1 heq x hx
    · rename_i u fs1 evs1 heq
      rcases hres : export_loop env od sh df rest fs1 with ⟨rr, fs2, evs2⟩
      rw [hres] at h
      simp only [Prod.mk.injEq] at h
      rw [← h.2.1]
      exact ih fs1 rr fs2 evs2 hres
        (export_entry_mono env od sh df fs kv _ fs1 evs1 heq x hx)

/-- A successful export loop has written the mandated files of every entry. -/
theorem export_loop_ok_writes (env : GitEnv) (od : String)
    (sh df : String → List String) (entries : List (String × FileChange))
    (fs : FS) (u : Unit) (fs' : FS) (evs : List FsEvent)
    (h : export_loop env od sh df entries fs = (Except.ok u, fs', evs)) :
    ∀ kv ∈ entries,
      (((Prod.snd kv).status = FileStatus.Added ∨
        (Prod.snd kv).status = FileStatus.Modified) →
        (findFile? fs' ⟨od, Prod.fst kv⟩).isSome = true) ∧
      ((Prod.snd kv).status = FileStatus.Modified →
        (findFile? fs' ⟨od, Prod.fst kv ++ ".diff"⟩).isSome = true) := by
  induction entries generalizing fs evs with
  | nil => intro kv hkv; simp at hkv
  | cons kv0 rest ih =>
    simp only [export_loop] at h
    split at h
    · simp at h
    · rename_i u' fs1 evs1 heq
      rcases hres : export_loop env od sh df rest fs1 with ⟨rr, fs2, evs2⟩
      rw [hres] at h
      simp only [Prod.mk.injEq] at h
      obtain ⟨hrr, hfs2, _⟩ := h
      subst hfs2
      subst hrr
      intro kv hkv
      rcases List.mem_cons.mp hkv with hkv0 | hmem
      · subst hkv0
        obtain ⟨hcontent, hdiff⟩ :=
          export_entry_ok_writes env od sh df fs kv u' fs1 evs1 heq
        exact ⟨fun hor => export_loop_mono env od sh df rest fs1 _ fs2 evs2
            hres _ (hcontent hor),
          fun hmod => export_loop_mono env od sh df rest fs1 _ fs2 evs2
            hres _ (hdiff hmod)⟩
      · exact ih fs1 evs2 hres kv hmem

/-- Files at none of the entries' destinations are untouched by the loop. -/
theorem export_loop_off_target (env : GitEnv) (od : String)
    (sh df : String → List String) (entries : List (String × FileChange))
    (fs : FS) (r : Except Error Unit) (fs' : FS) (evs : List FsEvent)
    (h : export_loop env od sh df entries fs = (r, fs', evs))
    (x : OutPath)
    (hx : ∀ kv ∈ entries,
      ((Prod.snd kv).status = FileStatus.Added ∨
        (Prod.snd kv).status = FileStatus.Modified →
        x ≠ ⟨od, Prod.fst kv⟩) ∧
      ((Prod.snd kv).status = FileStatus.Modified →
        x ≠ ⟨od, Prod.fst kv ++ ".diff"⟩)) :
    findFile? fs' x = findFile? fs x := by
  induction entries generalizing fs r fs' evs with
  | nil =>
    simp only [export_loop, Prod.mk.injEq] at h
    rw [← h.2.1]
  | cons kv0 rest ih =>
    obtain ⟨hx1, hx2⟩ := hx kv0 (List.mem_cons_self _ _)
    have hxrest : ∀ kv ∈ rest,
        ((Prod.snd kv).status = FileStatus.Added ∨
          (Prod.snd kv).status = FileStatus.Modified →
          x ≠ (⟨od, Prod.fst kv⟩ : OutPath)) ∧
        ((Prod.snd kv).status = FileStatus.Modified →
          x ≠ (⟨od, Prod.fst kv ++ ".diff"⟩ : OutPath)) :=
      fun kv hkv => hx kv (List.mem_cons_of_mem _ hkv)
    simp only [export_loop] at h
    split at h
    · rename_i e fs1 evs1 heq
      simp only [Prod.mk.injEq] at h
      rw [← h.2.1]
      exact export_entry_off_target env od sh df fs kv0 _ fs1 evs1 heq x hx1 hx2
    · rename_i u fs1 evs1 heq
      rcases hres : export_loop env od sh df rest fs1 with ⟨rr, fs2, evs2⟩
      rw [hres] at h
      simp only [Prod.mk.injEq] at h
      rw [← h.2.1]
      rw [ih fs1 rr fs2 evs2 hres hxrest]
      exact export_entry_off_target env od sh df fs kv0 _ fs1 evs1 heq x hx1 hx2

/-- The export loop creates directories only on demand: its full event trace
satisfies the discipline, in success and in failure. -/
theorem export_loop_dod (env : GitEnv) (od : String)
    (sh df : String → List String) (entries : List (String × FileChange))
    (fs : FS) (r : Except Error Unit) (fs' : FS) (evs : List FsEvent)
    (h : export_loop env od sh df entries fs = (r, fs', evs)) :
    dirsOnDemand evs = true := by
  induction entries generalizing fs r fs' evs with
  | nil =>
    simp only [export_loop, Prod.mk.injEq] at h
    rw [← h.2.2]
    rfl
  | cons kv0 rest ih =>
    simp only [export_loop] at h
    split at h
    · rename_i e fs1 evs1 heq
      simp only [Prod.mk.injEq] at h
      rw [← h.2.2]
      have := export_entry_dod env od sh df fs kv0 _ fs1 evs1 heq [] rfl
      simpa using this
    · rename_i u fs1 evs1 heq
      rcases hres : export_loop env od sh df rest fs1 with ⟨rr, fs2, evs2⟩
      rw [hres] at h
      simp only [Prod.mk.injEq] at h
      rw [← h.2.2]
      exact export_entry_dod env od sh df fs kv0 _ fs1 evs1 heq evs2
        (ih fs1 rr fs2 evs2 hres)

/-! ## Bridging lemmas for the processor operations -/

theorem strAppendCancelRight (s t u : String) (h : s ++ u = t ++ u) : s = t := by
  have h1 : s.data ++ u.data = t.data ++ u.data := by
    have := congrArg String.data h
    simpa [String.data_append] using this
  exact String.ext (List.append_cancel_right h1)

/-- A successful branch comparison is the parse of its diff query's text. -/
theorem gcb_ok (env : GitEnv) (b t : String) (m : ChangeMap)
    (h : get_changes_for_branch env b t = Except.ok m) :
    ∃ out, run_git_command env (branchDiffArgs b t) = Except.ok out ∧
      m = parse_name_status out := by
  unfold get_changes_for_branch at h
  split at h
  · cases h
  · rename_i out heq
    exact ⟨out, heq, Except.ok.inj h.symm⟩

/-- A successful commit comparison is the parse of its diff query's text. -/
theorem gcc_fst_ok (env : GitEnv) (c : String) (m : ChangeMap)
    (h : (get_changes_for_commits env c).fst = Except.ok m) :
    ∃ out, run_git_command env (commitDiffArgs c) = Except.ok out ∧
      m = parse_name_status out := by
  unfold get_changes_for_commits at h
  split at h
  · split at h
    · simp at h
    · rename_i out heq
      simp only at h
      exact ⟨out, heq, (Except.ok.inj h).symm⟩
  · split at h
    · simp at h
    · split at h
      · simp at h
      · rename_i out heq
        simp only at h
        exact ⟨out, heq, Except.ok.inj h.symm⟩

theorem gcb_nodup (env : GitEnv) (b t : String) (m : ChangeMap)
    (h : get_changes_for_branch env b t = Except.ok m) :
    ChangeMap.NodupKeys m := by
  obtain ⟨out, _, hm⟩ := gcb_ok env b t m h
  rw [hm]
  exact nodupKeys_parseLines _

theorem gcc_nodup (env : GitEnv) (c : String) (m : ChangeMap)
    (h : (get_changes_for_commits env c).fst = Except.ok m) :
    ChangeMap.NodupKeys m := by
  obtain ⟨out, _, hm⟩ := gcc_fst_ok env c m h
  rw [hm]
  exact nodupKeys_parseLines _

/-- Driver equation: a commit list whose per-commit computations all succeed
folds their maps over the accumulator. -/
theorem driver_ok (env : GitEnv) (cs : List String) :
    ∀ acc ms, commitResults env cs = Except.ok ms →
      get_changes_for_commit_list env cs acc =
        Except.ok (ms.foldl ChangeMap.insertAll acc) := by
  induction cs with
  | nil =>
    intro acc ms h
    unfold commitResults at h
    cases h
    rfl
  | cons c cs ih =>
    intro acc ms h
    unfold commitResults at h
    split at h
    · rename_i m ms' heq1 heq2
      cases h
      unfold get_changes_for_commit_list
      rw [heq1]
      exact ih (ChangeMap.insertAll acc m) ms' heq2
    · cases h
    · cases h

/-- Every map in a successful commit-results list came from one commit. -/
theorem commitResults_mem (env : GitEnv) (cs : List String) :
    ∀ ms, commitResults env cs = Except.ok ms →
      ∀ m ∈ ms, ∃ c, (get_changes_for_commits env c).fst = Except.ok m := by
  induction cs with
  | nil =>
    intro ms h m hm
    unfold commitResults at h
    cases h
    simp at hm
  | cons c cs ih =>
    intro ms h m hm
    unfold commitResults at h
    split at h
    · rename_i m0 ms' heq1 heq2
      cases h
      rcases List.mem_cons.mp hm with h0 | hmem
      · exact ⟨c, h0 ▸ heq1⟩
      · exact ih ms' heq2 m hmem
    · cases h
    · cases h

/-- Decomposition of a successful branch export. -/
theorem ebc_ok (env : GitEnv) (fs : FS) (b t od : String) (m : ChangeMap)
    (fs' : FS) (evs : List FsEvent)
    (h : export_branch_changes env fs b t od = (Except.ok m, fs', evs)) :
    checkout_branch env b = Except.ok () ∧
    get_changes_for_branch env b t = Except.ok m ∧
    ∃ u, export_loop env od (branchShowArgs b) (branchDiffFileArgs b t) m fs =
      (Except.ok u, fs', evs) := by
  unfold export_branch_changes at h
  split at h
  · simp at h
  · rename_i u0 hco
    split at h
    · simp at h
    · rename_i cf hgc
      split at h
      · rename_i u1 fs1 evs1 hloop
        simp only [Prod.mk.injEq] at h
        obtain ⟨hm, hfs, hevs⟩ := h
        have hcf : cf = m := by simpa using hm
        subst hcf
        subst hfs
        subst hevs
        cases u0
        exact ⟨hco, hgc, u1, hloop⟩
      · simp at h

/-- Decomposition of a successful commit export. -/
theorem ecc_ok (env : GitEnv) (fs : FS) (c od : String) (m : ChangeMap)
    (fs' : FS) (evs : List FsEvent)
    (h : export_commit_changes env fs c od = (Except.ok m, fs', evs)) :
    (get_changes_for_commits env c).fst = Except.ok m ∧
    ∃ u, export_loop env od (commitShowArgs c) (commitDiffFileArgs c) m fs =
      (Except.ok u, fs', evs) := by
  unfold export_commit_changes at h
  split at h
  · simp at h
  · rename_i cf hgc
    split at h
    · rename_i u1 fs1 evs1 hloop
      simp only [Prod.mk.injEq] at h
      obtain ⟨hm, hfs, hevs⟩ := h
      have hcf : cf = m := by simpa using hm
      subst hcf
      subst hfs
      subst hevs
      exact ⟨hgc, u1, hloop⟩
    · simp at h

/-! ## The claims -/

/-- C6: for every argument list, `run_git_command` returns the external
command's stdout text with surrounding whitespace trimmed when the command
exits successfully; it fails with a `GitCommandError` carrying the captured
stderr text when the command exits non-zero or cannot be spawned; and stdout
that is not valid UTF-8 also yields a `GitCommandError` (never any other
error kind). -/
theorem c6_run_query_contract (env : GitEnv) (args : List String) :
    (∀ msg, env.run args = SpawnResult.spawnFailure msg →
      run_git_command env args = Except.error (Error.GitCommandError msg)) ∧
    (∀ out, env.run args = SpawnResult.ok out →
      (out.success = false →
        run_git_command env args =
          Except.error (Error.GitCommandError out.stderr)) ∧
      (out.success = true →
        (∀ s, utf8Decode out.stdout = some s →
          run_git_command env args = Except.ok (rustTrim s)) ∧
        (utf8Decode out.stdout = none →
          run_git_command env args =
            Except.error (Error.GitCommandError utf8ErrorMessage)))) := by
  constructor
  · intro msg hr
    unfold run_git_command
    rw [hr]
  · intro out hr
    constructor
    · intro hs
      unfold run_git_command
      rw [hr]
      simp [hs]
    · intro hs
      constructor
      · intro s hdec
        unfold run_git_command
        rw [hr]
        simp [hs, hdec]
      · intro hdec
        unfold run_git_command
        rw [hr]
        simp [hs, hdec]

/-- C9: when the external command exits non-zero or cannot be spawned,
`run_git_command_to_file` returns an error and leaves the filesystem
unchanged: the destination file is not created or overwritten and no
directory is created, since all filesystem writes happen only after the
command has succeeded. -/
theorem c9_query_to_file_failure_clean (env : GitEnv) (args : List String)
    (p : OutPath) (fs : FS) :
    (∀ msg, env.run args = SpawnResult.spawnFailure msg →
      run_git_command_to_file env args p fs =
        (Except.error (Error.GitCommandError msg), fs, [])) ∧
    (∀ out, env.run args = SpawnResult.ok out → out.success = false →
      run_git_command_to_file env args p fs =
        (Except.error (Error.GitCommandError out.stderr), fs, [])) ∧
    (∀ e fs' evs,
      run_git_command_to_file env args p fs = (Except.error e, fs', evs) →
      fs' = fs ∧ evs = []) :=
  ⟨(rgctf_err_of_run env args p fs).1, (rgctf_err_of_run env args p fs).2,
   fun e fs' evs h => rgctf_err_state env args p fs e fs' evs h⟩

/-- C8: a repository source is treated as a clone source (fresh temporary
workspace plus `git clone`) exactly when it begins with `https://` or
`git@`; anything else is handled as a local filesystem path. -/
theorem c8_source_detection (env : GitEnv) (repo : String) :
    (strBeginsWith "https://".data repo.data = true ∨
      strBeginsWith "git@".data repo.data = true →
      ∀ p, GitChangesProcessor.new env repo = Except.ok p →
        ∃ root, env.tempWorkspace = Except.ok root ∧
          clone_repo env repo root = Except.ok () ∧
          p.source = RepoSource.clonedTemp root) ∧
    (strBeginsWith "https://".data repo.data = false →
      strBeginsWith "git@".data repo.data = false →
      GitChangesProcessor.new env repo =
        Except.ok ⟨RepoSource.localPath repo⟩) := by
  constructor
  · intro hurl p h
    have hcond : (strBeginsWith "https://".data repo.data ||
        strBeginsWith "git@".data repo.data) = true := by
      rcases hurl with h1 | h1 <;> simp [h1]
    unfold GitChangesProcessor.new at h
    rw [hcond] at h
    simp only [if_true] at h
    split at h
    · cases h
    · rename_i root hroot
      split at h
      · cases h
      · rename_i u hclone
        cases u
        cases h
        exact ⟨root, hroot, hclone, rfl⟩
  · intro h1 h2
    unfold GitChangesProcessor.new
    rw [h1, h2]
    rfl

/-- C4: in a branch comparison with no explicit target branch, if discovery
of the remote symbolic HEAD fails, the literal `origin/main` is used as the
comparison base instead of failing: the default-branch entry points behave
exactly like the explicit-target entry points called with `origin/main`. -/
theorem c4_default_branch_fallback (env : GitEnv) (e : Error)
    (hfail : run_git_command env discoverDefaultBranchArgs = Except.error e) :
    discover_default_branch env = Except.ok "origin/main" ∧
    (∀ branch, list_changes_from_default_branch env branch =
      list_branch_changes env branch "origin/main") ∧
    (∀ fs branch output_dir,
      export_changes_from_default_branch env fs branch output_dir =
        export_branch_changes env fs branch "origin/main" output_dir) := by
  have hdisc : discover_default_branch env = Except.ok "origin/main" := by
    unfold discover_default_branch
    rw [hfail]
  refine ⟨hdisc, fun branch => ?_, fun fs branch output_dir => ?_⟩
  · unfold list_changes_from_default_branch list_branch_changes
    rcases hco : checkout_branch env branch with e' | u
    · rfl
    · rw [hdisc]
  · unfold export_changes_from_default_branch
    rw [hdisc]

theorem split_of_lineEntry? (l p : String) (v : FileChange)
    (h : lineEntry? l p = some v) :
    ∃ code rest, splitWhitespace l = code :: p :: rest := by
  unfold lineEntry? at h
  rcases hsp : splitWhitespace l with _ | ⟨c, _ | ⟨q, rest⟩⟩
  · simp [hsp] at h
  · simp [hsp] at h
  · by_cases hq : q = p
    · refine ⟨c, rest, ?_⟩
      rw [hq]
    · simp [hsp, hq] at h

theorem pathKeyed_driver (env : GitEnv) (cs : List String) :
    ∀ acc m, get_changes_for_commit_list env cs acc = Except.ok m →
      ChangeMap.PathKeyed acc → ChangeMap.PathKeyed m := by
  induction cs with
  | nil =>
    intro acc m h hacc
    unfold get_changes_for_commit_list at h
    cases h
    exact hacc
  | cons c cs ih =>
    intro acc m h hacc
    unfold get_changes_for_commit_list at h
    split at h
    · cases h
    · rename_i m0 heq
      obtain ⟨out, _, hm0⟩ := gcc_fst_ok env c m0 heq
      exact ih (ChangeMap.insertAll acc m0) m h
        (ChangeMap.pathKeyed_insertAll acc m0 hacc
          (hm0 ▸ pathKeyed_parseLines _))

theorem lbc_ok (env : GitEnv) (b t : String) (m : ChangeMap)
    (h : list_branch_changes env b t = Except.ok m) :
    get_changes_for_branch env b t = Except.ok m := by
  unfold list_branch_changes at h
  split at h
  · cases h
  · exact h

theorem lcdb_ok (env : GitEnv) (b : String) (m : ChangeMap)
    (h : list_changes_from_default_branch env b = Except.ok m) :
    ∃ t, get_changes_for_branch env b t = Except.ok m := by
  unfold list_changes_from_default_branch at h
  split at h
  · cases h
  · split at h
    · cases h
    · rename_i t heq
      exact ⟨t, h⟩

theorem ecdb_ok (env : GitEnv) (fs : FS) (b od : String) (m : ChangeMap)
    (fs' : FS) (evs : List FsEvent)
    (h : export_changes_from_default_branch env fs b od =
      (Except.ok m, fs', evs)) :
    ∃ t, export_branch_changes env fs b t od = (Except.ok m, fs', evs) := by
  unfold export_changes_from_default_branch at h
  split at h
  · simp at h
  · rename_i t heq
    exact ⟨t, h⟩

/-- C10: in every change map returned by any listing or export operation,
each entry's key equals the `path` field of its `FileChange` value. -/
theorem c10_entry_key_equals_path :
    (∀ env b t m, get_changes_for_branch env b t = Except.ok m →
      ∀ k v, ChangeMap.find? m k = some v → v.path = k) ∧
    (∀ env c m, (get_changes_for_commits env c).fst = Except.ok m →
      ∀ k v, ChangeMap.find? m k = some v → v.path = k) ∧
    (∀ env cs m,
      get_changes_for_commit_list env cs ChangeMap.empty = Except.ok m →
      ∀ k v, ChangeMap.find? m k = some v → v.path = k) ∧
    (∀ env b t m, list_branch_changes env b t = Except.ok m →
      ∀ k v, ChangeMap.find? m k = some v → v.path = k) ∧
    (∀ env b m, list_changes_from_default_branch env b = Except.ok m →
      ∀ k v, ChangeMap.find? m k = some v → v.path = k) ∧
    (∀ env c m, list_commit_changes env c = Except.ok m →
      ∀ k v, ChangeMap.find? m k = some v → v.path = k) ∧
    (∀ env fs b t od m fs' evs,
      export_branch_changes env fs b t od = (Except.ok m, fs', evs) →
      ∀ k v, ChangeMap.find? m k = some v → v.path = k) ∧
    (∀ env fs b od m fs' evs,
      export_changes_from_default_branch env fs b od =
        (Except.ok m, fs', evs) →
      ∀ k v, ChangeMap.find? m k = some v → v.path = k) ∧
    (∀ env fs c od m fs' evs,
      export_commit_changes env fs c od = (Except.ok m, fs', evs) →
      ∀ k v, ChangeMap.find? m k = some v → v.path = k) := by
  have hbranch : ∀ env b t m, get_changes_for_branch env b t = Except.ok m →
      ChangeMap.PathKeyed m := by
    intro env b t m h
    obtain ⟨out, _, hm⟩ := gcb_ok env b t m h
    exact hm ▸ pathKeyed_parseLines _
  have hcommit : ∀ env c m,
      (get_changes_for_commits env c).fst = Except.ok m →
      ChangeMap.PathKeyed m := by
    intro env c m h
    obtain ⟨out, _, hm⟩ := gcc_fst_ok env c m h
    exact hm ▸ pathKeyed_parseLines _
  refine ⟨fun env b t m h => ChangeMap.pathKeyed_find? m (hbranch env b t m h),
    fun env c m h => ChangeMap.pathKeyed_find? m (hcommit env c m h),
    fun env cs m h => ChangeMap.pathKeyed_find? m
      (pathKeyed_driver env cs ChangeMap.empty m h ChangeMap.pathKeyed_empty),
    fun env b t m h => ChangeMap.pathKeyed_find? m
      (hbranch env b t m (lbc_ok env b t m h)),
    fun env b m h => ?_,
    fun env c m h => ChangeMap.pathKeyed_find? m (hcommit env c m h),
    fun env fs b t od m fs' evs h => ChangeMap.pathKeyed_find? m
      (hbranch env b t m (ebc_ok env fs b t od m fs' evs h).2.1),
    fun env fs b od m fs' evs h => ?_,
    fun env fs c od m fs' evs h => ChangeMap.pathKeyed_find? m
      (hcommit env c m (ecc_ok env fs c od m fs' evs h).1)⟩
  · obtain ⟨t, ht⟩ := lcdb_ok env b m h
    exact ChangeMap.pathKeyed_find? m (hbranch env b t m ht)
  · obtain ⟨t, ht⟩ := ecdb_ok env fs b od m fs' evs h
    exact ChangeMap.pathKeyed_find? m
      (hbranch env b t m (ebc_ok env fs b t od m fs' evs ht).2.1)

/-- C7: for a commit identifier, if the local-resolvability probe fails, a
fetch of that identifier from `origin` is attempted before the diff runs,
and a failing fetch makes the whole call (listing and export) fail with
exactly the fetch's error; if the probe succeeds, no fetch command is ever
invoked. -/
theorem c7_fetch_on_unresolvable (env : GitEnv) (c : String) :
    (∀ e0, run_git_command env (catFileArgs c) = Except.error e0 →
      (∀ e, run_git_command env (fetchArgs c) = Except.error e →
        (get_changes_for_commits env c).fst = Except.error e ∧
        (get_changes_for_commits env c).snd = [catFileArgs c, fetchArgs c] ∧
        list_commit_changes env c = Except.error e ∧
        ∀ fs od, export_commit_changes env fs c od =
          (Except.error e, fs, [])) ∧
      (∀ s, run_git_command env (fetchArgs c) = Except.ok s →
        (get_changes_for_commits env c).snd =
          [catFileArgs c, fetchArgs c, commitDiffArgs c])) ∧
    (∀ s, run_git_command env (catFileArgs c) = Except.ok s →
      fetchArgs c ∉ (get_changes_for_commits env c).snd) := by
  constructor
  · intro e0 hcat
    constructor
    · intro e hfetch
      have hmain : get_changes_for_commits env c =
          (Except.error e, [catFileArgs c, fetchArgs c]) := by
        unfold get_changes_for_commits
        rw [hcat, hfetch]
        rfl
      refine ⟨by rw [hmain], by rw [hmain], by unfold list_commit_changes; rw [hmain],
        fun fs od => ?_⟩
      unfold export_commit_changes
      rw [hmain]
    · intro s hfetch
      unfold get_changes_for_commits
      rw [hcat, hfetch]
      rcases hdiff : run_git_command env (commitDiffArgs c) with e1 | out
      · rfl
      · rfl
  · intro s hcat
    have htrace : (get_changes_for_commits env c).snd =
        [catFileArgs c, commitDiffArgs c] := by
      unfold get_changes_for_commits
      rw [hcat]
      rcases hdiff : run_git_command env (commitDiffArgs c) with e1 | out
      · rfl
      · rfl
    rw [htrace]
    intro hmem
    rcases List.mem_cons.mp hmem with h1 | hmem2
    · have hh : "fetch" = "cat-file" := by injection h1
      exact absurd hh (by decide)
    · rcases List.mem_cons.mp hmem2 with h2 | hmem3
      · have hh : "fetch" = "diff" := by injection h2
        exact absurd hh (by decide)
      · simp at hmem3

/-- C1: the change map of a comparison is built from its name-status output
line by line: every line with at least two whitespace-separated fields
contributes the entry keyed by its second field with status `A` ↦ Added,
`D` ↦ Deleted, anything else ↦ Modified, and lines with fewer than two
fields contribute nothing (every key of the map comes from some two-field
line).  The per-line statement assumes the path fields of the well-formed
lines are pairwise distinct, which holds for genuine `git diff --name-status
--no-renames` output (each path is listed at most once per diff); on
adversarial repeated paths the later line wins, as the spec states
separately. -/
theorem c1_name_status_parsing :
    (∀ env b t m, get_changes_for_branch env b t = Except.ok m →
      ∃ out, run_git_command env (branchDiffArgs b t) = Except.ok out ∧
        m = parse_name_status out) ∧
    (∀ env c m, (get_changes_for_commits env c).fst = Except.ok m →
      ∃ out, run_git_command env (commitDiffArgs c) = Except.ok out ∧
        m = parse_name_status out) ∧
    (∀ output, (validPaths (rustLines output)).Nodup →
      ∀ line ∈ rustLines output, ∀ code path rest,
        splitWhitespace line = code :: path :: rest →
        ChangeMap.find? (parse_name_status output) path =
          some ⟨path, statusOf code⟩) ∧
    (∀ output p, (ChangeMap.find? (parse_name_status output) p).isSome = true →
      ∃ line ∈ rustLines output, ∃ code rest,
        splitWhitespace line = code :: p :: rest) := by
  refine ⟨gcb_ok, gcc_fst_ok, ?_, ?_⟩
  · intro output hnd line hline code path rest hsplit
    unfold parse_name_status
    rw [find?_parseLines]
    have hrevnd : (validPaths (rustLines output).reverse).Nodup := by
      have heq : validPaths ((rustLines output).reverse) =
          (validPaths (rustLines output)).reverse := by
        unfold validPaths
        exact List.filterMap_reverse ..
      rw [heq]
      exact List.nodup_reverse.mpr hnd
    refine firstLineHit_of_mem _ line path ⟨path, statusOf code⟩ hrevnd
      (List.mem_reverse.mpr hline) ?_
    unfold lineEntry?
    rw [hsplit]
    simp
  · intro output p hsome
    unfold parse_name_status at hsome
    rw [find?_parseLines] at hsome
    rcases hfh : firstLineHit (rustLines output).reverse p with _ | v
    · rw [hfh] at hsome
      simp at hsome
    · obtain ⟨l, hl, he⟩ := exists_of_firstLineHit _ p v hfh
      exact ⟨l, List.mem_reverse.mp hl, split_of_lineEntry? l p v he⟩

/-- C2 (multi-commit driver modelled from the spec): processing an ordered
commit list merges the per-parent diffs in caller order into one map; the
merged map's binding for any path is the first hit scanning the per-commit
maps from the last-processed commit backwards, so a path named by several
commits keeps the last-processed commit's status (in particular, Added in an
earlier commit then Deleted in a later one reports Deleted, as the concrete
witness instantiates). -/
theorem c2_commit_list_merge (env : GitEnv) (cs : List String)
    (ms : List ChangeMap)
    (hms : commitResults env cs = Except.ok ms) :
    get_changes_for_commit_list env cs ChangeMap.empty =
      Except.ok (ChangeMap.mergeAll ms) ∧
    ∀ p, ChangeMap.find? (ChangeMap.mergeAll ms) p = firstHit ms.reverse p := by
  constructor
  · exact driver_ok env cs ChangeMap.empty ms hms
  · intro p
    refine ChangeMap.find?_mergeAll ms p ?_
    intro m hm
    obtain ⟨c, hc⟩ := commitResults_mem env cs ms hms m hm
    exact gcc_nodup env c m hc

/-- Generic per-entry guarantee of a successful export loop over a map with
distinct keys. -/
theorem export_loop_spec (env : GitEnv) (od : String)
    (sh df : String → List String) (m : ChangeMap) (fs : FS) (u : Unit)
    (fs' : FS) (evs : List FsEvent) (hnd : ChangeMap.NodupKeys m)
    (hloop : export_loop env od sh df m fs = (Except.ok u, fs', evs)) :
    ∀ p fc, ChangeMap.find? m p = some fc →
      ((fc.status = FileStatus.Added ∨ fc.status = FileStatus.Modified) →
        (findFile? fs' ⟨od, p⟩).isSome = true) ∧
      (fc.status = FileStatus.Modified →
        (findFile? fs' ⟨od, p ++ ".diff"⟩).isSome = true) ∧
      (fc.status = FileStatus.Deleted →
        (∀ q fc', ChangeMap.find? m q = some fc' →
          q ++ ".diff" ≠ p ∧ q ≠ p ++ ".diff") →
        findFile? fs' ⟨od, p⟩ = findFile? fs ⟨od, p⟩ ∧
        findFile? fs' ⟨od, p ++ ".diff"⟩ = findFile? fs ⟨od, p ++ ".diff"⟩) := by
  intro p fc hfind
  have hmem : (p, fc) ∈ m := ChangeMap.mem_of_find?_eq_some m p fc hfind
  obtain ⟨hcontent, hdiff⟩ :=
    export_loop_ok_writes env od sh df m fs u fs' evs hloop (p, fc) hmem
  refine ⟨hcontent, hdiff, ?_⟩
  intro hdel halias
  constructor
  · refine export_loop_off_target env od sh df m fs _ fs' evs hloop
      ⟨od, p⟩ ?_
    intro kv hkv
    have hfind' : ChangeMap.find? m (Prod.fst kv) = some (Prod.snd kv) :=
      ChangeMap.find?_eq_some_of_mem m (Prod.fst kv) (Prod.snd kv) hnd hkv
    obtain ⟨hal1, hal2⟩ := halias (Prod.fst kv) (Prod.snd kv) hfind'
    constructor
    · intro hstat heqp
      have hp : p = Prod.fst kv := congrArg OutPath.rel heqp
      rw [← hp] at hfind'
      rw [hfind] at hfind'
      have hfc : fc = Prod.snd kv := Option.some.inj hfind'
      rcases hstat with hA | hA <;>
        · rw [← hfc, hdel] at hA
          cases hA
    · intro _ heqp
      exact hal1 (congrArg OutPath.rel heqp).symm
  · refine export_loop_off_target env od sh df m fs _ fs' evs hloop
      ⟨od, p ++ ".diff"⟩ ?_
    intro kv hkv
    have hfind' : ChangeMap.find? m (Prod.fst kv) = some (Prod.snd kv) :=
      ChangeMap.find?_eq_some_of_mem m (Prod.fst kv) (Prod.snd kv) hnd hkv
    obtain ⟨hal1, hal2⟩ := halias (Prod.fst kv) (Prod.snd kv) hfind'
    constructor
    · intro _ heqp
      exact hal2 (congrArg OutPath.rel heqp).symm
    · intro hM heqp
      have hpq : p ++ ".diff" = Prod.fst kv ++ ".diff" :=
        congrArg OutPath.rel heqp
      have hp : p = Prod.fst kv := strAppendCancelRight p (Prod.fst kv) ".diff" hpq
      rw [← hp] at hfind'
      rw [hfind] at hfind'
      have hfc : fc = Prod.snd kv := Option.some.inj hfind'
      rw [← hfc, hdel] at hM
      cases hM

/-- C3 (amended): after a successful export, every Added or Modified path
has a content file at `outputDir/path`, and every Modified path additionally
has a diff file at `outputDir/path.diff`; a Deleted path still appears in
the returned map, and — provided no other changed path `q` aliases its
artifacts (`q.diff = p` or `q = p.diff`) — the locations `outputDir/p` and
`outputDir/p.diff` are left exactly as they were before the export.  The
aliasing proviso is forced by the counterexample `c3_counterexample`. -/
theorem c3_export_artifacts :
    (∀ env fs b t od m fs' evs,
      export_branch_changes env fs b t od = (Except.ok m, fs', evs) →
      ∀ p fc, ChangeMap.find? m p = some fc →
        ((fc.status = FileStatus.Added ∨ fc.status = FileStatus.Modified) →
          (findFile? fs' ⟨od, p⟩).isSome = true) ∧
        (fc.status = FileStatus.Modified →
          (findFile? fs' ⟨od, p ++ ".diff"⟩).isSome = true) ∧
        (fc.status = FileStatus.Deleted →
          (∀ q fc', ChangeMap.find? m q = some fc' →
            q ++ ".diff" ≠ p ∧ q ≠ p ++ ".diff") →
          findFile? fs' ⟨od, p⟩ = findFile? fs ⟨od, p⟩ ∧
          findFile? fs' ⟨od, p ++ ".diff"⟩ = findFile? fs ⟨od, p ++ ".diff"⟩)) ∧
    (∀ env fs c od m fs' evs,
      export_commit_changes env fs c od = (Except.ok m, fs', evs) →
      ∀ p fc, ChangeMap.find? m p = some fc →
        ((fc.status = FileStatus.Added ∨ fc.status = FileStatus.Modified) →
          (findFile? fs' ⟨od, p⟩).isSome = true) ∧
        (fc.status = FileStatus.Modified →
          (findFile? fs' ⟨od, p ++ ".diff"⟩).isSome = true) ∧
        (fc.status = FileStatus.Deleted →
          (∀ q fc', ChangeMap.find? m q = some fc' →
            q ++ ".diff" ≠ p ∧ q ≠ p ++ ".diff") →
          findFile? fs' ⟨od, p⟩ = findFile? fs ⟨od, p⟩ ∧
          findFile? fs' ⟨od, p ++ ".diff"⟩ = findFile? fs ⟨od, p ++ ".diff"⟩)) := by
  constructor
  · intro env fs b t od m fs' evs h
    obtain ⟨hco, hgc, u, hloop⟩ := ebc_ok env fs b t od m fs' evs h
    exact export_loop_spec env od _ _ m fs u fs' evs (gcb_nodup env b t m hgc)
      hloop
  · intro env fs c od m fs' evs h
    obtain ⟨hgc, u, hloop⟩ := ecc_ok env fs c od m fs' evs h
    exact export_loop_spec env od _ _ m fs u fs' evs (gcc_nodup env c m hgc)
      hloop

/-- Refutation of C3 as stated: a successful export in which path `a.diff`
has status Deleted, the output tree previously had no file at
`outputDir/a.diff`, and after the export a file exists there (the diff
artifact of the Modified path `a`).  So a Deleted path can end up with a
file written at its output location. -/
theorem c3_counterexample :
    export_branch_changes envC3 (FS.mk [] []) "b" "t" "out" =
      (Except.ok [("a.diff", ⟨"a.diff", FileStatus.Deleted⟩),
        ("a", ⟨"a", FileStatus.Modified⟩)],
       FS.mk [(⟨"out", "a.diff"⟩, utf8Encode "diff text"),
         (⟨"out", "a"⟩, utf8Encode "new content")] ["out"],
       [FsEvent.createDirAll "out", FsEvent.writeFile ⟨"out", "a"⟩,
        FsEvent.writeFile ⟨"out", "a.diff"⟩]) ∧
    findFile? (FS.mk [(⟨"out", "a.diff"⟩, utf8Encode "diff text"),
      (⟨"out", "a"⟩, utf8Encode "new content")] ["out"]) ⟨"out", "a.diff"⟩ =
      some (utf8Encode "diff text") ∧
    findFile? (FS.mk [] []) ⟨"out", "a.diff"⟩ = none :=
  ⟨rfl, rfl, rfl⟩

/-- C5 (amended): no directory is created proactively at the start of an
export — the source never touches the output directory before the per-file
loop.  Every directory creation, including the one that first materializes
the output directory itself, happens on demand as the missing parent of an
exported file, immediately before that file is written: in every export
run's event trace, each `createDirAll` event is immediately followed by the
write of a file whose parent is exactly that directory.  The original
claim's "ensured to exist at the start" is refuted by `c5_counterexample`. -/
theorem c5_dirs_on_demand :
    (∀ env fs b t od r fs' evs,
      export_branch_changes env fs b t od = (r, fs', evs) →
      dirsOnDemand evs = true) ∧
    (∀ env fs b od r fs' evs,
      export_changes_from_default_branch env fs b od = (r, fs', evs) →
      dirsOnDemand evs = true) ∧
    (∀ env fs c od r fs' evs,
      export_commit_changes env fs c od = (r, fs', evs) →
      dirsOnDemand evs = true) := by
  have hbranch : ∀ env fs b t od r fs' evs,
      export_branch_changes env fs b t od = (r, fs', evs) →
      dirsOnDemand evs = true := by
    intro env fs b t od r fs' evs h
    unfold export_branch_changes at h
    split at h
    · simp only [Prod.mk.injEq] at h
      rw [← h.2.2]
      rfl
    · split at h
      · simp only [Prod.mk.injEq] at h
        rw [← h.2.2]
        rfl
      · rename_i cf hgc
        split at h
        · rename_i u fs1 evs1 hloop
          simp only [Prod.mk.injEq] at h
          rw [← h.2.2]
          exact export_loop_dod env od _ _ cf fs _ fs1 evs1 hloop
        · rename_i e fs1 evs1 hloop
          simp only [Prod.mk.injEq] at h
          rw [← h.2.2]
          exact export_loop_dod env od _ _ cf fs _ fs1 evs1 hloop
  refine ⟨hbranch, ?_, ?_⟩
  · intro env fs b od r fs' evs h
    unfold export_changes_from_default_branch at h
    split at h
    · simp only [Prod.mk.injEq] at h
      rw [← h.2.2]
      rfl
    · rename_i t hdisc
      exact hbranch env fs b t od r fs' evs h
  · intro env fs c od r fs' evs h
    unfold export_commit_changes at h
    split at h
    · simp only [Prod.mk.injEq] at h
      rw [← h.2.2]
      rfl
    · rename_i cf hgc
      split at h
      · rename_i u fs1 evs1 hloop
        simp only [Prod.mk.injEq] at h
        rw [← h.2.2]
        exact export_loop_dod env od _ _ cf fs _ fs1 evs1 hloop
      · rename_i e fs1 evs1 hloop
        simp only [Prod.mk.injEq] at h
        rw [← h.2.2]
        exact export_loop_dod env od _ _ cf fs _ fs1 evs1 hloop

/-- Refutation of C5 as stated: a successful export whose change set holds
one Deleted entry finishes with the filesystem exactly as it started — no
directory whatsoever, in particular not the output directory `out`, was
created at the start of the export or later, and the event trace is empty. -/
theorem c5_counterexample :
    export_branch_changes envC5 (FS.mk [] []) "b" "t" "out" =
      (Except.ok [("gone.txt", ⟨"gone.txt", FileStatus.Deleted⟩)],
       FS.mk [] [], []) ∧
    "out" ∉ (FS.mk ([] : List (OutPath × List Nat)) ([] : List String)).dirs :=
  ⟨rfl, by simp⟩

theorem c1_witness :
    ChangeMap.find? (parse_name_status "A f.txt\nD g.txt\nzz") "f.txt" =
      some ⟨"f.txt", FileStatus.Added⟩ :=
  c1_name_status_parsing.2.2.1 "A f.txt\nD g.txt\nzz" (by decide)
    "A f.txt" (by decide) "A" "f.txt" [] rfl

theorem c2_witness :
    get_changes_for_commit_list envC2 ["c1", "c2"] ChangeMap.empty =
      Except.ok [("p", ⟨"p", FileStatus.Deleted⟩)] ∧
    ChangeMap.find? [("p", ⟨"p", FileStatus.Deleted⟩)] "p" =
      some ⟨"p", FileStatus.Deleted⟩ := by
  obtain ⟨h1, -⟩ := c2_commit_list_merge envC2 ["c1", "c2"]
    [[("p", ⟨"p", FileStatus.Added⟩)], [("p", ⟨"p", FileStatus.Deleted⟩)]] rfl
  exact ⟨h1.trans rfl, rfl⟩

theorem c3_witness :
    (findFile? (FS.mk [(⟨"out", "a.diff"⟩, utf8Encode "diff text"),
      (⟨"out", "a"⟩, utf8Encode "new content")] ["out"])
      ⟨"out", "a"⟩).isSome = true ∧
    (findFile? (FS.mk [(⟨"out", "a.diff"⟩, utf8Encode "diff text"),
      (⟨"out", "a"⟩, utf8Encode "new content")] ["out"])
      ⟨"out", "a.diff"⟩).isSome = true ∧
    findFile? (FS.mk [] []) ⟨"out", "gone.txt"⟩ =
      findFile? (FS.mk [] []) ⟨"out", "gone.txt"⟩ := by
  have h1 := c3_export_artifacts.1 envC3 (FS.mk [] []) "b" "t" "out"
    [("a.diff", ⟨"a.diff", FileStatus.Deleted⟩),
     ("a", ⟨"a", FileStatus.Modified⟩)]
    (FS.mk [(⟨"out", "a.diff"⟩, utf8Encode "diff text"),
      (⟨"out", "a"⟩, utf8Encode "new content")] ["out"])
    [FsEvent.createDirAll "out", FsEvent.writeFile ⟨"out", "a"⟩,
     FsEvent.writeFile ⟨"out", "a.diff"⟩]
    rfl "a" ⟨"a", FileStatus.Modified⟩ rfl
  have h2 := c3_export_artifacts.1 envC5 (FS.mk [] []) "b" "t" "out"
    [("gone.txt", ⟨"gone.txt", FileStatus.Deleted⟩)] (FS.mk [] []) [] rfl
    "gone.txt" ⟨"gone.txt", FileStatus.Deleted⟩ rfl
  refine ⟨h1.1 (Or.inr rfl), h1.2.1 rfl, (h2.2.2 rfl ?_).1⟩
  intro q fc' hq
  by_cases hqq : "gone.txt" = q
  · subst hqq
    exact ⟨by decide, by decide⟩
  · simp only [ChangeMap.find?, hqq, if_false] at hq
    cases hq

theorem c4_witness :
    list_changes_from_default_branch envC4 "b" =
      list_branch_changes envC4 "b" "origin/main" :=
  (c4_default_branch_fallback envC4 (Error.GitCommandError "no head") rfl).2.1 "b"

theorem c5_witness :
    dirsOnDemand [FsEvent.createDirAll "out", FsEvent.writeFile ⟨"out", "a"⟩,
      FsEvent.writeFile ⟨"out", "a.diff"⟩] = true :=
  c5_dirs_on_demand.1 envC3 (FS.mk [] []) "b" "t" "out"
    (Except.ok [("a.diff", ⟨"a.diff", FileStatus.Deleted⟩),
      ("a", ⟨"a", FileStatus.Modified⟩)])
    (FS.mk [(⟨"out", "a.diff"⟩, utf8Encode "diff text"),
      (⟨"out", "a"⟩, utf8Encode "new content")] ["out"])
    [FsEvent.createDirAll "out", FsEvent.writeFile ⟨"out", "a"⟩,
     FsEvent.writeFile ⟨"out", "a.diff"⟩] rfl

theorem c6_witness :
    run_git_command envC6 ["boom"] =
      Except.error (Error.GitCommandError "spawn failed") ∧
    run_git_command envC6 ["status"] = Except.ok "hi" ∧
    run_git_command envC6 ["bad"] =
      Except.error (Error.GitCommandError utf8ErrorMessage) ∧
    run_git_command envC6 ["other"] =
      Except.error (Error.GitCommandError "git error") := by
  have h := c6_run_query_contract envC6
  refine ⟨(h ["boom"]).1 "spawn failed" rfl, ?_, ?_, ?_⟩
  · exact (((h ["status"]).2 ⟨true, utf8Encode " hi ", ""⟩ rfl).2 rfl).1 " hi " rfl
  · exact (((h ["bad"]).2 ⟨true, [0xFF], ""⟩ rfl).2 rfl).2 rfl
  · exact ((h ["other"]).2 ⟨false, [], "git error"⟩ rfl).1 rfl

theorem c7_witness :
    (get_changes_for_commits envC7 "c").fst =
      Except.error (Error.GitCommandError "fetchfail") ∧
    (get_changes_for_commits envC7 "c").snd =
      [catFileArgs "c", fetchArgs "c"] := by
  have h := ((c7_fetch_on_unresolvable envC7 "c").1
    (Error.GitCommandError "missing") rfl).1
    (Error.GitCommandError "fetchfail") rfl
  exact ⟨h.1, h.2.1⟩

theorem c8_witness :
    (∃ root, envC8.tempWorkspace = Except.ok root ∧
      clone_repo envC8 "https://x" root = Except.ok () ∧
      (⟨RepoSource.clonedTemp "tmp"⟩ : GitChangesProcessor).source =
        RepoSource.clonedTemp root) ∧
    GitChangesProcessor.new envC8 "local/repo" =
      Except.ok ⟨RepoSource.localPath "local/repo"⟩ :=
  ⟨(c8_source_detection envC8 "https://x").1 (Or.inl rfl)
      ⟨RepoSource.clonedTemp "tmp"⟩ rfl,
    (c8_source_detection envC8 "local/repo").2 rfl rfl⟩

theorem c9_witness :
    run_git_command_to_file envC9 ["diff"] ⟨"out", "f"⟩ (FS.mk [] []) =
      (Except.error (Error.GitCommandError "boom"), FS.mk [] [], []) :=
  (c9_query_to_file_failure_clean envC9 ["diff"] ⟨"out", "f"⟩
    (FS.mk [] [])).2.1 ⟨false, [], "boom"⟩ rfl rfl

theorem c10_witness :
    Option.map FileChange.path (ChangeMap.find?
      [("a.diff", ⟨"a.diff", FileStatus.Deleted⟩),
       ("a", ⟨"a", FileStatus.Modified⟩)] "a") = some "a" := by
  have h := c10_entry_key_equals_path.1 envC3 "b" "t"
    [("a.diff", ⟨"a.diff", FileStatus.Deleted⟩),
     ("a", ⟨"a", FileStatus.Modified⟩)]
    rfl "a" ⟨"a", FileStatus.Modified⟩ rfl
  rw [show ChangeMap.find? [("a.diff", ⟨"a.diff", FileStatus.Deleted⟩),
    ("a", ⟨"a", FileStatus.Modified⟩)] "a" =
    some ⟨"a", FileStatus.Modified⟩ from rfl]
  simp [h]
